import Mathlib

/-!
Verification of pyrolite plotting/serialization utilities against their
natural-language specification.

Shallow embedding of:
  - src/pyrolite/util/plot.py : ABC_to_xy, xy_to_ABC (ternary/Cartesian
    converter), bin_centres_to_edges, ternary_heatmap (histogram mode),
    percentile_contour_values_from_meshz (with the scipy interp1d / np.interp
    semantics the source calls into);
  - src/pyrolite/util/alphamelts/meltsfile.py : to_meltsfile, from_meltsfile.

Machine floats are modelled by exact arithmetic (ℚ where concrete evaluation is
needed, ℝ where the code manipulates irrational constants such as sqrt 3 / 2 or
logarithms). Numeric definitions are polymorphic over a linear ordered field so
the same definitions serve exact rational evaluation and real-valued theorems.
-/

namespace Pyrolite

/-- Model of pyrolite.comp.codata.close for one 3-part row.  The function is
repository code outside src/ (plot.py imports it), so it is
Modelled from the spec: "Closure: normalizing a compositional vector so its
parts sum to 1" — each row is divided by its row sum. -/
def close3 {α : Type} [Field α] (p : α × α × α) : α × α × α :=
  (p.1 / (p.1 + p.2.1 + p.2.2),
   p.2.1 / (p.1 + p.2.1 + p.2.2),
   p.2.2 / (p.1 + p.2.1 + p.2.2))

/-- Row-wise model of plot.ABC_to_xy (src/pyrolite/util/plot.py lines 151-157):
close the row, shear (x = a + b/2, y = b), then scale x by xscale and y by
yscale.  The third part is dropped: affine_transform keeps only the first two
columns. -/
def ABC_to_xy {α : Type} [Field α] (p : α × α × α) (xscale yscale : α) : α × α :=
  (xscale * ((close3 p).1 + (close3 p).2.1 / 2), yscale * (close3 p).2.1)

/-- Row-wise model of plot.xy_to_ABC (src/pyrolite/util/plot.py lines 160-169):
un-scale (divide by xscale, yscale), un-shear (a = x - y/2, b = y), and set the
third part to 1 - (a + b). -/
def xy_to_ABC {α : Type} [Field α] (q : α × α) (xscale yscale : α) : α × α × α :=
  (q.1 / xscale - q.2 / yscale / 2,
   q.2 / yscale,
   1 - (q.1 / xscale - q.2 / yscale / 2 + q.2 / yscale))

/-! ### Percentile contour solver

Model of plot.percentile_contour_values_from_meshz (src/pyrolite/util/plot.py
lines 476-514) over exact rationals.  The source builds
t = np.linspace(0, z.max(), resolution), computes
integral[k] = ((z >= t[k]) * z).sum(), constructs
f = scipy.interpolate.interp1d(integral, t) and evaluates it at
percentiles * z.sum().  scipy's interp1d (assume_sorted=False) sorts the knots
by a stable argsort — modelled by a stable insertion sort on (integral, t)
pairs — and its linear kind delegates to np.interp, whose conventions are:
for an in-range query, take the largest knot index j with x[j] <= q and
interpolate linearly towards knot j+1 (a query equal to the right endpoint or
beyond returns the last y value).  interp1d first raises ValueError when a
query lies outside [x[0], x[-1]] (bounds_error); the source catches that and
returns (["min"], f(nanmax of the integrals not np.isclose to 1)) — except
that when every integral is np.isclose to 1 the non-one selection is empty and
np.nanmax itself raises an uncaught ValueError on the zero-size array. -/

/-- Maximum of a rational list (np.max / np.nanmax for NaN-free data); 0 for
the empty list, which the source never hits on the inputs modelled here. -/
def listMaxQ : List ℚ → ℚ
  | [] => 0
  | h :: t => t.foldr max h

/-- Minimum of a rational list; 0 for the empty list. -/
def listMinQ : List ℚ → ℚ
  | [] => 0
  | h :: t => t.foldr min h

/-- Flattened cell values of the 2D density matrix z. -/
def meshEntries (z : List (List ℚ)) : List ℚ := z.flatten

/-- Total mass z.sum(). -/
def meshTotal (z : List (List ℚ)) : ℚ := (meshEntries z).sum

/-- Largest cell value z.max(). -/
def meshMax (z : List (List ℚ)) : ℚ := listMaxQ (meshEntries z)

/-- Threshold candidate k of np.linspace(0.0, z.max(), resolution). -/
def tcand (z : List (List ℚ)) (r k : ℕ) : ℚ := meshMax z * k / ((r : ℚ) - 1)

/-- Integral of z over the cells where z >= theta:
((z >= t[:, None, None]) * z).sum(axis=(1, 2)) for one threshold. -/
def integralAt (z : List (List ℚ)) (theta : ℚ) : ℚ :=
  ((meshEntries z).filter (fun v => theta ≤ v)).sum

/-- The integral array, indexed like the threshold candidates. -/
def integralSeq (z : List (List ℚ)) (r : ℕ) : List ℚ :=
  (List.range r).map (fun k => integralAt z (tcand z r k))

/-- The (integral, threshold) knot pairs in threshold order. -/
def pairList (z : List (List ℚ)) (r : ℕ) : List (ℚ × ℚ) :=
  (List.range r).map (fun k => (integralAt z (tcand z r k), tcand z r k))

/-- Comparison used to sort knots by integral value. -/
def pairLE (a b : ℚ × ℚ) : Prop := a.1 ≤ b.1

instance : DecidableRel pairLE := fun a b => inferInstanceAs (Decidable (a.1 ≤ b.1))

instance : IsTotal (ℚ × ℚ) pairLE := ⟨fun a b => le_total a.1 b.1⟩

instance : IsTrans (ℚ × ℚ) pairLE := ⟨fun _ _ _ h h2 => le_trans h h2⟩

/-- Knots sorted by integral value.  scipy interp1d sorts with a stable
argsort (ties keep their original threshold order); a stable insertion sort
realizes the same permutation. -/
def sortedPairs (z : List (List ℚ)) (r : ℕ) : List (ℚ × ℚ) :=
  List.insertionSort pairLE (pairList z r)

/-- Linear interpolation walk of np.interp over knots with nondecreasing x:
value at the largest knot index j with x[j] <= q, interpolated towards the
next knot; at or beyond the last knot the last y value.  Callers query it
only inside [x[0], x[-1]] (interp1d raises ValueError outside). -/
def npInterpAux : List (ℚ × ℚ) → ℚ → ℚ
  | [], _ => 0
  | [pr] , _ => pr.2
  | pr0 :: pr1 :: rest, q =>
      if q < pr1.1 then pr0.2 + (pr1.2 - pr0.2) * (q - pr0.1) / (pr1.1 - pr0.1)
      else npInterpAux (pr1 :: rest) q

/-- The interpolant f = interp1d(integral, t) evaluated at q. -/
def npInterp (pts : List (ℚ × ℚ)) (q : ℚ) : ℚ := npInterpAux pts q

/-- Smallest knot x value (x[0] of the sorted knots). -/
def knotLo : List (ℚ × ℚ) → ℚ
  | [] => 0
  | pr :: _ => pr.1

/-- Largest knot x value (x[-1] of the sorted knots). -/
def knotHi : List (ℚ × ℚ) → ℚ
  | [] => 0
  | [pr] => pr.1
  | _ :: pr :: rest => knotHi (pr :: rest)

/-- Comparison used by sorted(percentiles, reverse=True). -/
def geQ (a b : ℚ) : Prop := b ≤ a

instance : DecidableRel geQ := fun a b => inferInstanceAs (Decidable (b ≤ a))

instance : IsTotal ℚ geQ := ⟨fun a b => le_total b a⟩

instance : IsTrans ℚ geQ := ⟨fun _ _ _ h h2 => le_trans h2 h⟩

/-- Python sorted(percentiles, reverse=True): stable descending sort. -/
def sortDesc (ps : List ℚ) : List ℚ := List.insertionSort geQ ps

/-- np.isclose(v, 1.0) with the numpy defaults rtol=1e-5, atol=1e-8:
the absolute difference is at most atol + rtol * |1.0|. -/
def isCloseOne (v : ℚ) : Prop := |v - 1| ≤ 1001 / 100000000

instance : DecidablePred isCloseOne := fun v =>
  inferInstanceAs (Decidable (|v - 1| ≤ 1001 / 100000000))

/-- integral[~np.isclose(integral, np.ones_like(integral))]. -/
def nonOne (z : List (List ℚ)) (r : ℕ) : List ℚ :=
  (integralSeq z r).filter (fun v => decide (¬ isCloseOne v))

/-- Result of percentile_contour_values_from_meshz.  levels ps ts stands for
the pair (percentiles sorted descending, interpolated contour thresholds);
minLevel t stands for the graceful-degradation return (["min"], [t]) together
with the logger.debug diagnostic emitted on that path; nanmaxError stands for
the uncaught ValueError that np.nanmax raises on the zero-size array
integral[~np.isclose(integral, ones)] when every integral is close to 1. -/
inductive ContourResult where
  | levels (percs : List ℚ) (contours : List ℚ)
  | minLevel (contour : ℚ)
  | nanmaxError
  deriving DecidableEq

/-- Model of percentile_contour_values_from_meshz(z, percentiles, resolution).
The try branch evaluates the interpolant at percentiles * z.sum(); interp1d
raises ValueError as soon as one target lies outside the knot range, and the
except branch returns the "min" level at the largest integral value not close
to 1 — unless that non-one selection is empty, in which case np.nanmax raises
ValueError on the zero-size array and the exception propagates (nothing
catches it). -/
def percentile_contour_values_from_meshz (z : List (List ℚ)) (ps : List ℚ)
    (r : ℕ) : ContourResult :=
  let pairs := sortedPairs z r
  let sorted := sortDesc ps
  let targets := sorted.map (fun p => p * meshTotal z)
  if ∀ q ∈ targets, knotLo pairs ≤ q ∧ q ≤ knotHi pairs then
    ContourResult.levels sorted (targets.map (npInterp pairs))
  else if nonOne z r = [] then
    ContourResult.nanmaxError
  else
    ContourResult.minLevel (npInterp pairs (listMaxQ (nonOne z r)))

/-- Discretization error of the integral lookup at resolution r: the largest
drop between consecutive entries of the integral array. -/
def discErr (z : List (List ℚ)) (r : ℕ) : ℚ :=
  listMaxQ (List.zipWith (fun a b => a - b) (integralSeq z r) (integralSeq z r).tail)

/-! ### Meltsfile codec

Model of src/pyrolite/util/alphamelts/meltsfile.py.  Text is modelled as
List Char, because Lean's String primitives do not reduce inside the kernel;
str2l converts a string literal.  The model fixes os.linesep = "\n" (the
POSIX platform). -/

/-- The character list of a string literal. -/
def str2l (s : String) : List Char := s.data

/-- Whitespace characters of Python str.strip() occurring in meltsfiles. -/
def isSpaceC (c : Char) : Bool := c == ' ' || c == '\n' || c == '\t' || c == '\r'

/-- Python str.strip(). -/
def trimL (l : List Char) : List Char :=
  ((l.dropWhile isSpaceC).reverse.dropWhile isSpaceC).reverse

/-- ASCII lower-casing of one character (Python str.lower on the ASCII keys
used by the format). -/
def lowerC (c : Char) : Char :=
  if 65 ≤ c.toNat ∧ c.toNat ≤ 90 then Char.ofNat (c.toNat + 32) else c

/-- Python str.lower(). -/
def lowerL (l : List Char) : List Char := l.map lowerC

/-- Whether sep is a prefix of the second list. -/
def prefixOfL : List Char → List Char → Bool
  | [], _ => true
  | _ :: _, [] => false
  | a :: as, b :: bs => a == b && prefixOfL as bs

/-- Fuel-driven worker for Python str.split(sep): split at each leftmost
occurrence of the (nonempty) separator.  The fuel starts above the text
length, which bounds the number of steps. -/
def splitOnAuxL (sep : List Char) : ℕ → List Char → List Char → List (List Char)
  | _, [], acc => [acc.reverse]
  | 0, s, acc => [acc.reverse ++ s]
  | fuel + 1, c :: rest, acc =>
    if prefixOfL sep (c :: rest) then
      acc.reverse :: splitOnAuxL sep fuel ((c :: rest).drop sep.length) []
    else
      splitOnAuxL sep fuel rest (c :: acc)

/-- Python str.split(sep) for a nonempty separator. -/
def splitOnL (sep s : List Char) : List (List Char) :=
  splitOnAuxL sep (s.length + 1) s []

/-- Python str.split() on the space-separated composition payloads (the
payload lines contain no other whitespace). -/
def splitWsL (s : List Char) : List (List Char) :=
  (splitOnL [' '] s).filter (fun w => !w.isEmpty)

/-- Decimal digits to a natural number; none when empty or on a non-digit. -/
def digitsToNat (cs : List Char) : Option ℕ :=
  if cs.isEmpty then none
  else
    cs.foldl (fun acc c =>
      match acc with
      | none => none
      | some n => if c.isDigit then some (n * 10 + (c.toNat - 48)) else none)
      (some 0)

/-- Unsigned decimal literal: integer part, optional fractional part. -/
def parseDecimalCore (s : List Char) : Option ℚ :=
  match splitOnL ['.'] s with
  | [ip] => (digitsToNat ip).map (fun n => (n : ℚ))
  | [ip, fp] =>
    match digitsToNat ip, digitsToNat fp with
    | some n, some m => some ((n : ℚ) + (m : ℚ) / 10 ^ fp.length)
    | _, _ => none
  | _ => none

/-- Signed decimal literal. -/
def parseDecimal (s : List Char) : Option ℚ :=
  match s with
  | [] => none
  | c :: rest =>
    if c == '-' then (parseDecimalCore rest).map (fun q => -q)
    else if c == '+' then parseDecimalCore rest
    else parseDecimalCore (c :: rest)

/-- A parsed meltsfile value: numeric where coercion succeeded, else the raw
text. -/
inductive MeltsVal where
  | mstr (s : List Char)
  | mnum (q : ℚ)
  deriving DecidableEq

/-- Numeric coercion of one parsed field.  pyrolite.util.pd.to_numeric is
repository code outside src/, so it is Modelled from the spec: "numeric
coercion where possible else leaves the raw string". -/
def coerceVal (s : List Char) : MeltsVal :=
  match parseDecimal s with
  | some q => MeltsVal.mnum q
  | none => MeltsVal.mstr s

/-- A pandas cell value as to_meltsfile sees it: a string, a numeric (carried
as the decimal literal that str.format renders it to), or NaN. -/
inductive PdVal where
  | vstr (s : List Char)
  | vnum (lit : List Char)
  | vnan
  deriving DecidableEq

/-- pd.isnull for the modelled cell values. -/
def pdIsNull : PdVal → Bool
  | PdVal.vnan => true
  | _ => false

/-- Python "{}".format of a cell value. -/
def fmtVal : PdVal → List Char
  | PdVal.vstr s => s
  | PdVal.vnum lit => lit
  | PdVal.vnan => str2l ("nan")

/-- pandas Series lookup ser[k] (first matching index entry; NaN fallback is
never reached on the inputs the claims use). -/
def seriesGet (ser : List (List Char × PdVal)) (k : List Char) : PdVal :=
  match ser.find? (fun e => e.1 == k) with
  | some e => e.2
  | none => PdVal.vnan

/-- Modelled from the spec: representative members of the oxide and trace
element key sets (pyrolite.geochem.ind.__common_oxides__ and
__common_elements__ are repository code outside src/); the spec names
"Initial Composition element" and "Initial Trace element" keys, and the
claims exercise SiO2 and MgO as oxides. -/
def commonOxides : List (List Char) :=
  [str2l ("SiO2"), str2l ("MgO"), str2l ("Al2O3"), str2l ("FeO"), str2l ("CaO")]

/-- Modelled from the spec: representative trace element keys. -/
def commonElements : List (List Char) :=
  [str2l ("Sr"), str2l ("Ba"), str2l ("Ni")]

/-- Model of to_meltsfile (meltsfile.py lines 14-85): a Title line (the source
asserts a Title or title index entry exists), "Initial Composition" lines for
non-NaN oxides, "Initial Trace" lines for non-NaN trace elements (when
writetraces), Temperature/Pressure parameter lines, case-insensitively
matched dp/dt and log fo2 lines, and Mode lines, joined by os.linesep. -/
def to_meltsfile (ser : List (List Char × PdVal)) (writetraces : Bool)
    (modes exclude : List (List Char)) : List Char :=
  let idx := ser.map (fun e => e.1)
  let titleLine :=
    if idx.contains (str2l ("Title")) then
      str2l ("Title: ") ++ fmtVal (seriesGet ser (str2l ("Title")))
    else
      str2l ("Title: ") ++ fmtVal (seriesGet ser (str2l ("title")))
  let majors := ser.filter (fun e =>
    commonOxides.contains e.1 && !(exclude.contains e.1))
  let majorLines := (majors.filter (fun e => !(pdIsNull e.2))).map
    (fun e => str2l ("Initial Composition: ") ++ e.1 ++ [' '] ++ fmtVal e.2)
  let traceSrc := ser.filter (fun e =>
    commonElements.contains e.1 && !(exclude.contains e.1))
  let traceLines :=
    if writetraces then
      (traceSrc.filter (fun e => !(pdIsNull e.2))).map
        (fun e => str2l ("Initial Trace: ") ++ e.1 ++ [' '] ++ fmtVal e.2)
    else []
  let tpKeys := [str2l ("Initial Temperature"), str2l ("Final Temperature"),
    str2l ("Increment Temperature"), str2l ("Initial Pressure"),
    str2l ("Final Pressure"), str2l ("Increment Pressure")]
  let tpLines := (tpKeys.filter (fun k => idx.contains k)).filterMap (fun k =>
    if pdIsNull (seriesGet ser k) then none
    else some (k ++ str2l (": ") ++ fmtVal (seriesGet ser k)))
  let fo2Keys := [str2l ("dp/dt"), str2l ("log fo2 path"), str2l ("log fo2 delta")]
  let fo2Lines := fo2Keys.filterMap (fun k =>
    match ser.find? (fun e => lowerL e.1 == lowerL k) with
    | none => none
    | some e => if pdIsNull e.2 then none else some (k ++ str2l (": ") ++ fmtVal e.2))
  let modeLines := modes.map (fun m => str2l ("Mode: ") ++ m)
  List.intercalate (str2l ("\n"))
    ([titleLine] ++ majorLines ++ traceLines ++ tpLines ++ fo2Lines ++ modeLines)

/-- The text stage of from_meltsfile parsing (lines 140-146): keep non-blank
lines, split each on ": ", re-split "Initial Composition"/"Initial Trace"
payloads on whitespace (case-insensitive key match), strip the fields, and
take (first, second) as the (index, value) columns of the record frame. -/
def parseMeltsRows (file : List Char) : List (List Char × List Char) :=
  let rawlines := (splitOnL (str2l ("\n")) file).filter
    (fun l => !(trimL l).isEmpty)
  let fmtlines := rawlines.map (fun line =>
    let args := splitOnL (str2l (": ")) line
    let head := lowerL (trimL (args.headD []))
    if head == str2l ("initial composition") || head == str2l ("initial trace") then
      splitWsL (trimL (args.getD 1 []))
    else
      args.map trimL)
  fmtlines.map (fun row => (row.headD [], row.getD 1 []))

/-- The parsed record of from_meltsfile (lines 147-150): the rows with the
value column numerically coerced. -/
def parseMeltsText (file : List Char) : List (List Char × MeltsVal) :=
  (parseMeltsRows file).map (fun e => (e.1, coerceVal e.2))

/-- The argument passed to from_meltsfile: an io.BytesIO buffer (decoded
payload), an io.StringIO buffer, or a Python str that may name an existing
file or hold raw meltsfile text. -/
inductive MeltsSource where
  | bytesBuf (s : List Char)
  | strBuf (s : List Char)
  | textOrPath (s : List Char)

/-- Result of the Python call: a parsed record, or an uncaught
AttributeError. -/
inductive PyOutcome (α : Type) where
  | ok (val : α)
  | attributeError

/-- Model of from_meltsfile (meltsfile.py lines 115-150).  Buffers are read
and parsed.  For a str argument the source runs
try: with open(filename) as fh: file = filename.read().  When the path names
an existing readable file, open succeeds but .read() is invoked on the str
argument itself (not the handle fh), and str has no read attribute, so
AttributeError propagates.  When open raises FileNotFoundError, the except
branch parses the string itself as raw meltsfile text.  fileExists abstracts
the filesystem. -/
def from_meltsfile (fileExists : List Char → Bool) :
    MeltsSource → PyOutcome (List (List Char × MeltsVal))
  | MeltsSource.bytesBuf s => PyOutcome.ok (parseMeltsText s)
  | MeltsSource.strBuf s => PyOutcome.ok (parseMeltsText s)
  | MeltsSource.textOrPath s =>
    if fileExists s then PyOutcome.attributeError
    else PyOutcome.ok (parseMeltsText s)

/-- The record of the C9 round-trip scenario: Title "A", SiO2 = 50.2,
Initial Temperature = 1200, and a NaN oxide field (MgO) that the writer must
omit. -/
def ser9 : List (List Char × PdVal) :=
  [(str2l ("Title"), PdVal.vstr (str2l ("A"))),
   (str2l ("SiO2"), PdVal.vnum (str2l ("50.2"))),
   (str2l ("Initial Temperature"), PdVal.vnum (str2l ("1200"))),
   (str2l ("MgO"), PdVal.vnan)]

/-! ### Ternary heatmap

Model of plot.ternary_heatmap (src/pyrolite/util/plot.py lines 172-310) in
histogram mode, with the log-ratio transform pair as parameters where the
pipeline allows and the scipy spline boundary modelled explicitly.  The
pipeline stages are separate definitions mirroring the source blocks. -/

/-- Maximum of a list over a linear order; junk value for the empty list. -/
def listMaxA {α : Type} [LinearOrderedField α] : List α → α
  | [] => 0
  | h :: t => t.foldr max h

/-- Minimum of a list over a linear order; junk value for the empty list. -/
def listMinA {α : Type} [LinearOrderedField α] : List α → α
  | [] => 0
  | h :: t => t.foldr min h

/-- close(data) row by row. -/
def closeRows {α : Type} [Field α] (data : List (α × α × α)) : List (α × α × α) :=
  data.map close3

/-- All entries of the ternary data matrix, row-major. -/
def rowEntries {α : Type} (data : List (α × α × α)) : List α :=
  (data.map (fun p => [p.1, p.2.1, p.2.2])).flatten

/-- np.nanmin(data[data > 0]): the smallest positive entry (junk 0 when no
entry is positive; there the source itself fails on an empty selection). -/
def minPositive {α : Type} [LinearOrderedField α] (data : List (α × α × α)) : α :=
  listMinA ((rowEntries data).filter (fun v => decide (0 < v)))

/-- The margin actually used when force_margin is not set (line 243-244):
margin = min([margin, np.nanmin(data[data > 0])]) on the closed data. -/
def effMargin {α : Type} [LinearOrderedField α]
    (data : List (α × α × α)) (margin : α) : α :=
  min margin (minPositive (closeRows data))

/-- The three corner rows of the rendered region (lines 248-254). -/
def boundsRows {α : Type} [Field α] (m : α) : List (α × α × α) :=
  [(m, m, 1 - 2 * m), (m, 1 - 2 * m, m), (1 - 2 * m, m, m)]

/-- The Cartesian corner points of the rendered region (AXtfm(bounds)). -/
def cornersXY {α : Type} [Field α] (m s : α) : List (α × α) :=
  (boundsRows m).map (fun p => ABC_to_xy p 1 s)

/-- Horizontal extent of the corner points. -/
def spanX {α : Type} [LinearOrderedField α] (m s : α) : α :=
  listMaxA ((cornersXY m s).map (fun q => q.1)) -
    listMinA ((cornersXY m s).map (fun q => q.1))

/-- Vertical extent of the corner points. -/
def spanY {α : Type} [LinearOrderedField α] (m s : α) : α :=
  listMaxA ((cornersXY m s).map (fun q => q.2)) -
    listMinA ((cornersXY m s).map (fun q => q.2))

/-- Linear interpolation between two points of the plane. -/
def lerp2 {α : Type} [Field α] (p q : α × α) (t : α) : α × α :=
  (p.1 + t * (q.1 - p.1), p.2 + t * (q.2 - p.2))

/-- Euclidean distance in the plane. -/
noncomputable def dist2D (p q : ℝ × ℝ) : ℝ :=
  Real.sqrt ((q.1 - p.1) ^ 2 + (q.2 - p.2) ^ 2)

/-- Modelled from scipy.interpolate.splprep/splev with k=1, s=0, per=True on
the closed corner loop (lines 256-259): a chord-length parameterized
piecewise-linear interpolation through P1, P2, P3 and back to P1, sampled at
parameter u in [0, 1]. -/
noncomputable def boundarySample (P1 P2 P3 : ℝ × ℝ) (u : ℝ) : ℝ × ℝ :=
  let d1 := dist2D P1 P2
  let d2 := dist2D P2 P3
  let d3 := dist2D P3 P1
  let L := d1 + d2 + d3
  let u1 := d1 / L
  let u2 := (d1 + d2) / L
  if u ≤ u1 then lerp2 P1 P2 (u / u1)
  else if u ≤ u2 then lerp2 P2 P3 ((u - u1) / (u2 - u1))
  else lerp2 P3 P1 ((u - u2) / (1 - u2))

/-- The 10000 boundary samples mapped back to barycentric space
(lines 259-262): XAtfm(splev(linspace(0, 1, 10000))). -/
noncomputable def hmSamplesABC (m s : ℝ) : List (ℝ × ℝ × ℝ) :=
  (List.range 10000).map (fun k : ℕ =>
    xy_to_ABC
      (boundarySample ((cornersXY m s).getD 0 (0, 0))
        ((cornersXY m s).getD 1 (0, 0)) ((cornersXY m s).getD 2 (0, 0))
        ((k : ℝ) / 9999)) 1 s)

/-- axmin of the transformed boundary (line 264). -/
noncomputable def hmAxmin (tfm : ℝ × ℝ × ℝ → ℝ × ℝ) (m s : ℝ) : ℝ :=
  listMinA ((hmSamplesABC m s).map (fun p => (tfm p).1))

/-- axmax of the transformed boundary (line 264). -/
noncomputable def hmAxmax (tfm : ℝ × ℝ × ℝ → ℝ × ℝ) (m s : ℝ) : ℝ :=
  listMaxA ((hmSamplesABC m s).map (fun p => (tfm p).1))

/-- aymin of the transformed boundary (line 265). -/
noncomputable def hmAymin (tfm : ℝ × ℝ × ℝ → ℝ × ℝ) (m s : ℝ) : ℝ :=
  listMinA ((hmSamplesABC m s).map (fun p => (tfm p).2))

/-- aymax of the transformed boundary (line 265). -/
noncomputable def hmAymax (tfm : ℝ × ℝ × ℝ → ℝ × ℝ) (m s : ℝ) : ℝ :=
  listMaxA ((hmSamplesABC m s).map (fun p => (tfm p).2))

/-- np.linspace(a, b, n). -/
def linspaceL {α : Type} [Field α] (a b : α) (n : ℕ) : List α :=
  (List.range n).map (fun k : ℕ => a + (b - a) * (k : α) / ((n : α) - 1))

/-- bin_centres_to_edges (lines 117-127): shift the centres down by half the
first step and append one upper edge. -/
def bin_centres_to_edges {α : Type} [Field α] (centres : List α) : List α :=
  centres.map (fun c => c - (centres.getD 1 0 - centres.getD 0 0) / 2) ++
    [centres.getLastD 0 + (centres.getD 1 0 - centres.getD 0 0) / 2]

/-- Bin index of np.histogramdd for one axis: half-open bins with the last
bin closed on the right; none when the value is outside the edge range. -/
def binIndexL {α : Type} [LinearOrderedField α] : List α → α → Option ℕ
  | [], _ => none
  | [_], _ => none
  | [e0, e1], x => if e0 ≤ x ∧ x ≤ e1 then some 0 else none
  | e0 :: e1 :: e2 :: rest, x =>
    if e0 ≤ x ∧ x < e1 then some 0
    else (binIndexL (e1 :: e2 :: rest) x).map (fun j => j + 1)

/-- np.histogramdd(adata, bins=[xedges, yedges]) followed by the transpose of
line 288: row i is the y bin, column j the x bin. -/
def histCounts {α : Type} [LinearOrderedField α] (pts : List (α × α))
    (xedges yedges : List α) : List (List ℕ) :=
  (List.range (yedges.length - 1)).map (fun i =>
    (List.range (xedges.length - 1)).map (fun j =>
      (pts.filter (fun p =>
        decide (binIndexL xedges p.1 = some j ∧ binIndexL yedges p.2 = some i))).length))

/-- remove_background (lines 306-307): zero-count cells become NaN (none). -/
def removeBackground (H : List (List ℕ)) : List (List (Option ℕ)) :=
  H.map (fun row => row.map (fun n => if n = 0 then none else some n))

/-- The returned grids and matrices of ternary_heatmap in histogram mode with
remove_background and ret_centres (x edge grid, y edge grid, count matrix,
x centre grid, y centre grid). -/
structure HeatmapResult where
  xe : List (List ℝ)
  ye : List (List ℝ)
  counts : List (List (Option ℕ))
  cx : List (List ℝ)
  cy : List (List ℝ)

/-- Model of ternary_heatmap(data, bins, margin, transform, inverse_transform,
mode="histogram", remove_background=True, ret_centres=True) at a yscale s
fixed by the aspect argument.  The transform pair is a parameter exactly as
in the source.  Edge and centre grids are the np.meshgrid arrays mapped
elementwise through the inverse transform and the Cartesian converter (the
source flattens, maps and reshapes, which is the same elementwise map). -/
noncomputable def ternary_heatmap (data : List (ℝ × ℝ × ℝ)) (nbins : ℕ)
    (margin : ℝ) (tfm : ℝ × ℝ × ℝ → ℝ × ℝ) (itfm : ℝ × ℝ → ℝ × ℝ × ℝ)
    (s : ℝ) : HeatmapResult :=
  let m := effMargin data margin
  let adata := (closeRows data).map tfm
  let xbins := linspaceL (hmAxmin tfm m s) (hmAxmax tfm m s) nbins
  let ybins := linspaceL (hmAymin tfm m s) (hmAymax tfm m s) nbins
  let xedges := bin_centres_to_edges xbins
  let yedges := bin_centres_to_edges ybins
  { xe := yedges.map (fun ye => xedges.map (fun xe => (ABC_to_xy (itfm (xe, ye)) 1 s).1)),
    ye := yedges.map (fun ye => xedges.map (fun xe => (ABC_to_xy (itfm (xe, ye)) 1 s).2)),
    counts := removeBackground (histCounts adata xedges yedges),
    cx := ybins.map (fun yc => xbins.map (fun xc => (ABC_to_xy (itfm (xc, yc)) 1 s).1)),
    cy := ybins.map (fun yc => xbins.map (fun xc => (ABC_to_xy (itfm (xc, yc)) 1 s).2)) }

/-- The equilateral aspect yscale (aspect="eq", line 237). -/
noncomputable def yscaleEq : ℝ := Real.sqrt 3 / 2

/-- Modelled from the spec: the default forward transform is the isometric
log-ratio transform (pyrolite.comp.codata.ilr is repository code outside
src/); for 3 parts it maps a positive composition to the two orthonormal
log-ratio coordinates. -/
noncomputable def ilr3 (p : ℝ × ℝ × ℝ) : ℝ × ℝ :=
  ((Real.sqrt 2)⁻¹ * Real.log (p.1 / p.2.1),
   (Real.sqrt 6)⁻¹ * Real.log (p.1 * p.2.1 / p.2.2 ^ 2))

/-- Modelled from the spec: the inverse isometric log-ratio transform
(pyrolite.comp.codata.inverse_ilr, outside src/), the exact algebraic inverse
closing the exponentiated coordinates.  The claims use it only as an opaque
map for the returned grids. -/
noncomputable def inverse_ilr3 (q : ℝ × ℝ) : ℝ × ℝ × ℝ :=
  let g1 := Real.exp (Real.sqrt 2 / 2 * q.1 + Real.sqrt 6 / 6 * q.2)
  let g2 := Real.exp (-(Real.sqrt 2 / 2) * q.1 + Real.sqrt 6 / 6 * q.2)
  let g3 := Real.exp (-(Real.sqrt 6 / 3) * q.2)
  close3 (g1, g2, g3)

/-- The data rows of the C6 scenario. -/
noncomputable def data6 : List (ℝ × ℝ × ℝ) :=
  [(4/5, 1/10, 1/10), (33/100, 33/100, 17/50)]

/-- The heatmap of the C6 scenario: bins=5, default margin 0.01, default ilr
transform pair, equilateral aspect. -/
noncomputable def heat6 : HeatmapResult :=
  ternary_heatmap data6 5 (1/100) ilr3 inverse_ilr3 yscaleEq

/-- The round trip through Cartesian coordinates is exact (in real arithmetic)
for rows that sum to 1, for any nonzero scales. -/
theorem xy_to_ABC_ABC_to_xy {α : Type} [Field α] (a b c xs ys : α)
    (hxs : xs ≠ 0) (hys : ys ≠ 0) (hsum : a + b + c = 1) :
    xy_to_ABC (ABC_to_xy (a, b, c) xs ys) xs ys = (a, b, c) := by
  have h1 : a + b + c = 1 := hsum
  simp only [ABC_to_xy, xy_to_ABC, close3, h1, div_one]
  rw [mul_div_cancel_left₀ _ hxs, mul_div_cancel_left₀ _ hys]
  refine Prod.ext ?_ (Prod.ext ?_ ?_)
  · ring
  · rfl
  · linear_combination -hsum

/-- C1: for every composition of 3 positive parts summing to 1 and every
y_scale in {1.0, sqrt 3 / 2}, converting to Cartesian and back
(xy_to_ABC of ABC_to_xy, at xscale = 1) recovers the composition within the
floating tolerance 1e-9 — in the exact-arithmetic model the round trip is exact,
so each component differs by at most 1e-9. -/
theorem C1_ternary_roundtrip (a b c s : ℝ) (ha : 0 < a) (hb : 0 < b) (hc : 0 < c)
    (hsum : a + b + c = 1) (hs : s = 1 ∨ s = Real.sqrt 3 / 2) :
    |(xy_to_ABC (ABC_to_xy (a, b, c) 1 s) 1 s).1 - a| ≤ 1 / 10 ^ 9 ∧
    |(xy_to_ABC (ABC_to_xy (a, b, c) 1 s) 1 s).2.1 - b| ≤ 1 / 10 ^ 9 ∧
    |(xy_to_ABC (ABC_to_xy (a, b, c) 1 s) 1 s).2.2 - c| ≤ 1 / 10 ^ 9 := by
  have hs0 : s ≠ 0 := by
    rcases hs with h | h
    · rw [h]; exact one_ne_zero
    · rw [h]
      have h3 : (0:ℝ) < Real.sqrt 3 := Real.sqrt_pos.mpr (by norm_num)
      positivity
  rw [xy_to_ABC_ABC_to_xy a b c 1 s one_ne_zero hs0 hsum]
  norm_num

/-- Witness for C1 at the concrete composition (1/2, 1/4, 1/4) with y_scale 1. -/
theorem C1_ternary_roundtrip_witness :
    |(xy_to_ABC (ABC_to_xy ((1:ℝ)/2, 1/4, 1/4) 1 1) 1 1).1 - 1/2| ≤ 1 / 10 ^ 9 ∧
    |(xy_to_ABC (ABC_to_xy ((1:ℝ)/2, 1/4, 1/4) 1 1) 1 1).2.1 - 1/4| ≤ 1 / 10 ^ 9 ∧
    |(xy_to_ABC (ABC_to_xy ((1:ℝ)/2, 1/4, 1/4) 1 1) 1 1).2.2 - 1/4| ≤ 1 / 10 ^ 9 :=
  C1_ternary_roundtrip (1/2) (1/4) (1/4) 1 (by norm_num) (by norm_num) (by norm_num)
    (by norm_num) (Or.inl rfl)

/-- C7: for every 2D point (x, y) — whether or not it lies on the image of the
simplex — the row returned by xy_to_ABC sums to exactly 1, because the third
part is constructed as c = 1 - (a + b).  Stated for any nonzero scales. -/
theorem C7_xy_to_ABC_closure (x y xs ys : ℝ) (hxs : xs ≠ 0) (hys : ys ≠ 0) :
    (xy_to_ABC (x, y) xs ys).1 + (xy_to_ABC (x, y) xs ys).2.1 +
      (xy_to_ABC (x, y) xs ys).2.2 = 1 := by
  simp only [xy_to_ABC]
  ring

/-- Witness for C7 at the off-simplex point (7, -3) with unit scales. -/
theorem C7_xy_to_ABC_closure_witness :
    (xy_to_ABC ((7:ℝ), -3) 1 1).1 + (xy_to_ABC ((7:ℝ), -3) 1 1).2.1 +
      (xy_to_ABC ((7:ℝ), -3) 1 1).2.2 = 1 :=
  C7_xy_to_ABC_closure 7 (-3) 1 1 one_ne_zero one_ne_zero

/-! ### Helper lemmas for the percentile contour solver -/

/-- The seed value bounds a max fold from below. -/
theorem le_foldr_max_seed (b : ℚ) : ∀ (t : List ℚ), b ≤ t.foldr max b := by
  intro t
  induction t with
  | nil => exact le_refl b
  | cons c t2 ih => exact le_trans ih (le_max_right c _)

/-- Members bound a max fold from below. -/
theorem le_foldr_max_mem {a : ℚ} (b : ℚ) :
    ∀ {t : List ℚ}, a ∈ t → a ≤ t.foldr max b := by
  intro t
  induction t with
  | nil => intro h; cases h
  | cons c t2 ih =>
    intro hm
    rcases List.mem_cons.mp hm with rfl | hm
    · exact le_max_left a _
    · exact le_trans (ih hm) (le_max_right c _)

/-- Members of a list bound its listMaxQ from below. -/
theorem le_listMaxQ {a : ℚ} {l : List ℚ} (h : a ∈ l) : a ≤ listMaxQ l := by
  match l with
  | [] => cases h
  | c :: t =>
    rcases List.mem_cons.mp h with rfl | hm
    · exact le_foldr_max_seed a t
    · exact le_foldr_max_mem c hm

/-- The seed value bounds a min fold from above. -/
theorem foldr_min_seed_le (b : ℚ) : ∀ (t : List ℚ), t.foldr min b ≤ b := by
  intro t
  induction t with
  | nil => exact le_refl b
  | cons c t2 ih => exact le_trans (min_le_right c _) ih

/-- A min fold is bounded above by every member. -/
theorem foldr_min_mem_le {a : ℚ} (b : ℚ) :
    ∀ {t : List ℚ}, a ∈ t → t.foldr min b ≤ a := by
  intro t
  induction t with
  | nil => intro h; cases h
  | cons c t2 ih =>
    intro hm
    rcases List.mem_cons.mp hm with rfl | hm
    · exact min_le_left a _
    · exact le_trans (min_le_right c _) (ih hm)

/-- Members of a list bound its listMinQ from above. -/
theorem listMinQ_le {a : ℚ} {l : List ℚ} (h : a ∈ l) : listMinQ l ≤ a := by
  match l with
  | [] => cases h
  | c :: t =>
    rcases List.mem_cons.mp h with rfl | hm
    · exact foldr_min_seed_le a t
    · exact foldr_min_mem_le c hm

/-- Every cell of a non-negative matrix is non-negative. -/
theorem meshEntries_nonneg {z : List (List ℚ)}
    (hz : ∀ row ∈ z, ∀ v ∈ row, 0 ≤ v) : ∀ v ∈ meshEntries z, 0 ≤ v := by
  intro v hv
  rcases List.mem_flatten.mp hv with ⟨row, hrow, hvrow⟩
  exact hz row hrow v hvrow

/-- The mesh maximum of a non-negative matrix is non-negative. -/
theorem meshMax_nonneg {z : List (List ℚ)}
    (hz : ∀ row ∈ z, ∀ v ∈ row, 0 ≤ v) : 0 ≤ meshMax z := by
  unfold meshMax
  match h : meshEntries z with
  | [] => simp [listMaxQ]
  | c :: t =>
    have hc : 0 ≤ c := meshEntries_nonneg hz c (by rw [h]; exact List.mem_cons_self c t)
    exact le_trans hc (le_listMaxQ (List.mem_cons_self c t))

/-- The threshold integral is antitone in the threshold (for non-negative z):
raising the threshold can only drop cells from the masked sum. -/
theorem integralAt_anti {z : List (List ℚ)}
    (hz : ∀ row ∈ z, ∀ v ∈ row, 0 ≤ v) {t1 t2 : ℚ} (h : t1 ≤ t2) :
    integralAt z t2 ≤ integralAt z t1 := by
  unfold integralAt
  refine List.Sublist.sum_le_sum ?_ ?_
  · refine List.monotone_filter_right _ ?_
    intro a ha
    have := of_decide_eq_true ha
    exact decide_eq_true (le_trans h this)
  · intro a ha
    exact meshEntries_nonneg hz a (List.mem_of_mem_filter ha)

/-- Threshold candidates grow with the index (non-negative mesh maximum,
resolution at least 2). -/
theorem tcand_mono {z : List (List ℚ)} {r : ℕ}
    (hM : 0 ≤ meshMax z) (hr : 2 ≤ r) {k1 k2 : ℕ} (h : k1 ≤ k2) :
    tcand z r k1 ≤ tcand z r k2 := by
  unfold tcand
  have hrq : (0:ℚ) < (r : ℚ) - 1 := by
    have h2 : (2:ℚ) ≤ (r : ℚ) := by exact_mod_cast hr
    linarith
  have hk : (k1 : ℚ) ≤ (k2 : ℚ) := by exact_mod_cast h
  have hmul : meshMax z * k1 ≤ meshMax z * k2 := mul_le_mul_of_nonneg_left hk hM
  rw [div_eq_mul_inv, div_eq_mul_inv]
  exact mul_le_mul_of_nonneg_right hmul (inv_nonneg.mpr (le_of_lt hrq))

/-- Two chains on the same list combine into a conjunction chain. -/
theorem chain'_and_of {α : Type} {R S : α → α → Prop} :
    ∀ (l : List α), List.Chain' R l → List.Chain' S l →
      List.Chain' (fun a b => R a b ∧ S a b) l
  | [], _, _ => List.chain'_nil
  | [_], _, _ => List.chain'_singleton _
  | x :: y :: t, hR, hS => by
    rcases List.chain'_cons.mp hR with ⟨hr, hR2⟩
    rcases List.chain'_cons.mp hS with ⟨hs, hS2⟩
    exact List.chain'_cons.mpr ⟨⟨hr, hs⟩, chain'_and_of (y :: t) hR2 hS2⟩

/-- A bound on all consecutive differences gives a difference chain. -/
theorem chain'_sub_le {G : ℚ} :
    ∀ (l : List ℚ), (∀ g ∈ List.zipWith (fun a b => a - b) l l.tail, g ≤ G) →
      List.Chain' (fun a b => a - b ≤ G) l
  | [], _ => List.chain'_nil
  | [_], _ => List.chain'_singleton _
  | x :: y :: t, h => by
    refine List.chain'_cons.mpr ⟨?_, chain'_sub_le (y :: t) ?_⟩
    · exact h (x - y) (List.mem_cons_self _ _)
    · intro g hg
      exact h g (List.mem_cons_of_mem _ hg)

/-- The sorted knot list is a permutation of the knot list. -/
theorem sortedPairs_perm (z : List (List ℚ)) (r : ℕ) :
    (sortedPairs z r).Perm (pairList z r) :=
  List.perm_insertionSort pairLE (pairList z r)

/-- The sorted knot list is sorted by integral value. -/
theorem sortedPairs_sorted (z : List (List ℚ)) (r : ℕ) :
    List.Sorted pairLE (sortedPairs z r) :=
  List.sorted_insertionSort pairLE (pairList z r)

/-- Each sorted knot satisfies the defining relation: its x value is the
integral of z at its threshold. -/
theorem mem_sortedPairs_F {z : List (List ℚ)} {r : ℕ} {pr : ℚ × ℚ}
    (h : pr ∈ sortedPairs z r) : integralAt z pr.2 = pr.1 := by
  have hm : pr ∈ pairList z r := (sortedPairs_perm z r).mem_iff.mp h
  rcases List.mem_map.mp hm with ⟨k, _, hkeq⟩
  rw [← hkeq]

/-- The x values of the knot list are the integral array. -/
theorem map_fst_pairList (z : List (List ℚ)) (r : ℕ) :
    (pairList z r).map Prod.fst = integralSeq z r := by
  unfold pairList integralSeq
  rw [List.map_map]
  rfl

/-- The integral array is pairwise non-increasing. -/
theorem integralSeq_pairwise_ge {z : List (List ℚ)} {r : ℕ}
    (hz : ∀ row ∈ z, ∀ v ∈ row, 0 ≤ v) (hr : 2 ≤ r) :
    List.Pairwise (fun a b => b ≤ a) (integralSeq z r) := by
  unfold integralSeq
  refine List.pairwise_map.mpr ?_
  refine (List.pairwise_lt_range r).imp ?_
  intro a b hab
  exact integralAt_anti hz (tcand_mono (meshMax_nonneg hz) hr (le_of_lt hab))

/-- The x values of the sorted knots are exactly the reversed integral array
(two nondecreasing lists that are permutations of each other are equal). -/
theorem map_fst_sortedPairs {z : List (List ℚ)} {r : ℕ}
    (hz : ∀ row ∈ z, ∀ v ∈ row, 0 ≤ v) (hr : 2 ≤ r) :
    (sortedPairs z r).map Prod.fst = (integralSeq z r).reverse := by
  have hperm : ((sortedPairs z r).map Prod.fst).Perm ((integralSeq z r).reverse) := by
    refine List.Perm.trans (List.Perm.map Prod.fst (sortedPairs_perm z r)) ?_
    rw [map_fst_pairList]
    exact (List.reverse_perm (integralSeq z r)).symm
  have hs1 : List.Sorted (fun a b : ℚ => a ≤ b) ((sortedPairs z r).map Prod.fst) :=
    List.pairwise_map.mpr ((sortedPairs_sorted z r).imp (fun h => h))
  have hs2 : List.Sorted (fun a b : ℚ => a ≤ b) ((integralSeq z r).reverse) :=
    List.pairwise_reverse.mpr (integralSeq_pairwise_ge hz hr)
  exact List.eq_of_perm_of_sorted hperm hs1 hs2

/-- The discretization error is non-negative (resolution at least 2). -/
theorem discErr_nonneg {z : List (List ℚ)} {r : ℕ}
    (hz : ∀ row ∈ z, ∀ v ∈ row, 0 ≤ v) (hr : 2 ≤ r) : 0 ≤ discErr z r := by
  have hlen : (integralSeq z r).length = r := by
    unfold integralSeq
    rw [List.length_map, List.length_range]
  have hpw := integralSeq_pairwise_ge hz hr
  unfold discErr
  match hseq : integralSeq z r with
  | [] => rw [hseq] at hlen; simp at hlen; omega
  | [a] => rw [hseq] at hlen; simp at hlen; omega
  | a :: b :: t =>
    rw [hseq] at hpw
    have hab : b ≤ a := (List.pairwise_cons.mp hpw).1 b (List.mem_cons_self _ _)
    have hmem : a - b ∈ List.zipWith (fun x y => x - y) (a :: b :: t) (a :: b :: t).tail :=
      List.mem_cons_self _ _
    have := le_listMaxQ hmem
    linarith

/-- The sorted knots form a chain: x nondecreasing, with consecutive x gaps
bounded by the discretization error. -/
theorem sortedPairs_chain {z : List (List ℚ)} {r : ℕ}
    (hz : ∀ row ∈ z, ∀ v ∈ row, 0 ≤ v) (hr : 2 ≤ r) :
    List.Chain' (fun a b : ℚ × ℚ => a.1 ≤ b.1 ∧ b.1 - a.1 ≤ discErr z r)
      (sortedPairs z r) := by
  refine chain'_and_of _ ?_ ?_
  · exact (sortedPairs_sorted z r).chain'
  · have h1 : List.Chain' (fun x y : ℚ => y - x ≤ discErr z r)
        ((sortedPairs z r).map Prod.fst) := by
      rw [map_fst_sortedPairs hz hr, List.chain'_reverse]
      exact chain'_sub_le (integralSeq z r) (fun g hg => le_listMaxQ hg)
    exact (List.chain'_map Prod.fst).mp h1

/-- Core bound for the np.interp walk: on a chain of knots whose x values are
the (antitone) integral of their y values, an in-range query returns a
threshold whose integral is within the maximal consecutive x gap of the
query. -/
theorem npInterpAux_bound {F : ℚ → ℚ} (hF : ∀ u v : ℚ, u ≤ v → F v ≤ F u)
    {G : ℚ} (hG : 0 ≤ G) :
    ∀ (tl : List (ℚ × ℚ)) (hd : ℚ × ℚ) (q : ℚ),
      List.Chain' (fun a b => a.1 ≤ b.1 ∧ b.1 - a.1 ≤ G) (hd :: tl) →
      (∀ pr ∈ hd :: tl, F pr.2 = pr.1) →
      hd.1 ≤ q → q ≤ knotHi (hd :: tl) →
      |F (npInterpAux (hd :: tl) q) - q| ≤ G := by
  intro tl
  induction tl with
  | nil =>
    intro hd q _ hmem hlo hhi
    have hhi2 : q ≤ hd.1 := hhi
    have hq : q = hd.1 := le_antisymm hhi2 hlo
    have hFhd : F hd.2 = hd.1 := hmem hd (List.mem_cons_self _ _)
    simp only [npInterpAux, hFhd, hq, sub_self, abs_zero]
    exact hG
  | cons b t ih =>
    intro hd q hchain hmem hlo hhi
    rcases List.chain'_cons.mp hchain with ⟨⟨hx, hgap⟩, hchain2⟩
    by_cases hq : q < b.1
    · have hdlt : hd.1 < b.1 := lt_of_le_of_lt hlo hq
      have hdpos : 0 < b.1 - hd.1 := by linarith
      have hFhd : F hd.2 = hd.1 := hmem hd (List.mem_cons_self _ _)
      have hFb : F b.2 = b.1 := hmem b (by simp)
      have hbh : b.2 ≤ hd.2 := by
        by_contra hc
        push_neg at hc
        have h2 := hF hd.2 b.2 (le_of_lt hc)
        rw [hFhd, hFb] at h2
        linarith
      have hl0 : 0 ≤ (q - hd.1) / (b.1 - hd.1) :=
        div_nonneg (by linarith) (le_of_lt hdpos)
      have hl1 : (q - hd.1) / (b.1 - hd.1) ≤ 1 := by
        rw [div_le_one hdpos]
        linarith
      have hval : npInterpAux (hd :: b :: t) q =
          hd.2 + (b.2 - hd.2) * ((q - hd.1) / (b.1 - hd.1)) := by
        simp only [npInterpAux, if_pos hq]
        rw [mul_div_assoc]
      have hvlo : b.2 ≤ hd.2 + (b.2 - hd.2) * ((q - hd.1) / (b.1 - hd.1)) := by
        nlinarith [mul_nonneg (sub_nonneg.mpr hbh) (sub_nonneg.mpr hl1)]
      have hvhi : hd.2 + (b.2 - hd.2) * ((q - hd.1) / (b.1 - hd.1)) ≤ hd.2 := by
        nlinarith [mul_nonneg hl0 (sub_nonneg.mpr hbh)]
      have hFlo : hd.1 ≤ F (npInterpAux (hd :: b :: t) q) := by
        rw [hval]
        have h3 := hF _ _ hvhi
        rw [hFhd] at h3
        exact h3
      have hFhi : F (npInterpAux (hd :: b :: t) q) ≤ b.1 := by
        rw [hval]
        have h4 := hF _ _ hvlo
        rw [hFb] at h4
        exact h4
      rw [abs_le]
      constructor
      · linarith
      · linarith
    · push_neg at hq
      have hstep : npInterpAux (hd :: b :: t) q = npInterpAux (b :: t) q := by
        simp only [npInterpAux, if_neg (not_lt.mpr hq)]
      rw [hstep]
      refine ih b q hchain2 ?_ hq ?_
      · intro pr hpr
        exact hmem pr (List.mem_cons_of_mem _ hpr)
      · exact hhi

/-- Inversion of the levels branch: the returned labels are the percentiles
sorted descending, the contours are the interpolant at percentile * total
mass, and every target was inside the knot range. -/
theorem pcvfm_levels_inv {z : List (List ℚ)} {ps : List ℚ} {r : ℕ}
    {ls ts : List ℚ}
    (h : percentile_contour_values_from_meshz z ps r = ContourResult.levels ls ts) :
    (∀ q ∈ (sortDesc ps).map (fun p => p * meshTotal z),
        knotLo (sortedPairs z r) ≤ q ∧ q ≤ knotHi (sortedPairs z r)) ∧
    ls = sortDesc ps ∧
    ts = ((sortDesc ps).map (fun p => p * meshTotal z)).map
      (npInterp (sortedPairs z r)) := by
  simp only [percentile_contour_values_from_meshz] at h
  by_cases hc : ∀ q ∈ (sortDesc ps).map (fun p => p * meshTotal z),
      knotLo (sortedPairs z r) ≤ q ∧ q ≤ knotHi (sortedPairs z r)
  · rw [if_pos hc] at h
    injection h with h1 h2
    exact ⟨hc, h1.symm, h2.symm⟩
  · rw [if_neg hc] at h
    by_cases he : nonOne z r = []
    · rw [if_pos he] at h
      cases h
    · rw [if_neg he] at h
      cases h

/-- A (percentile, threshold) pair of the levels result: the percentile is a
requested one and the threshold is the interpolant at its in-range target. -/
theorem pcvfm_mem_zip {z : List (List ℚ)} {ps : List ℚ} {r : ℕ}
    {ls ts : List ℚ} {p t : ℚ}
    (h : percentile_contour_values_from_meshz z ps r = ContourResult.levels ls ts)
    (hmem : (p, t) ∈ ls.zip ts) :
    p ∈ sortDesc ps ∧ t = npInterp (sortedPairs z r) (p * meshTotal z) ∧
      knotLo (sortedPairs z r) ≤ p * meshTotal z ∧
      p * meshTotal z ≤ knotHi (sortedPairs z r) := by
  rcases pcvfm_levels_inv h with ⟨hrange, hls, hts⟩
  subst hls
  subst hts
  have h2 : (List.map (fun p => p * meshTotal z) (sortDesc ps)).map
        (npInterp (sortedPairs z r)) =
      List.map (fun a => npInterp (sortedPairs z r) (a * meshTotal z))
        (sortDesc ps) := by
    rw [List.map_map]
    rfl
  rw [h2] at hmem
  have hzip := List.zip_map' (id : ℚ → ℚ)
    (fun a => npInterp (sortedPairs z r) (a * meshTotal z)) (sortDesc ps)
  simp only [List.map_id, id_eq] at hzip
  rw [hzip] at hmem
  rcases List.mem_map.mp hmem with ⟨a, ha, heq⟩
  injection heq with hpa hta
  subst hpa
  refine ⟨ha, hta.symm, ?_⟩
  exact hrange _ (List.mem_map_of_mem _ ha)

/-- The sorted knot list has the resolution as its length. -/
theorem sortedPairs_length (z : List (List ℚ)) (r : ℕ) :
    (sortedPairs z r).length = r := by
  rw [(sortedPairs_perm z r).length_eq]
  unfold pairList
  rw [List.length_map, List.length_range]

/-- C2: for every 2D non-negative density matrix and every achievable
requested percentile p, the threshold t returned by
percentile_contour_values_from_meshz satisfies: the sum of z over the cells
with z >= t equals p times the total mass of z, within the discretization
error induced by the resolution (the largest drop between consecutive entries
of the integral array). -/
theorem C2_contour_mass_property (z : List (List ℚ)) (ps : List ℚ) (r : ℕ)
    (ls ts : List ℚ) (p t : ℚ)
    (hz : ∀ row ∈ z, ∀ v ∈ row, 0 ≤ v) (hr : 2 ≤ r)
    (hres : percentile_contour_values_from_meshz z ps r = ContourResult.levels ls ts)
    (hmem : (p, t) ∈ ls.zip ts) :
    |integralAt z t - p * meshTotal z| ≤ discErr z r := by
  rcases pcvfm_mem_zip hres hmem with ⟨_, ht, hlo, hhi⟩
  have hlen : (sortedPairs z r).length = r := sortedPairs_length z r
  subst ht
  have hchain := sortedPairs_chain hz hr
  have hmemF : ∀ pr ∈ sortedPairs z r, integralAt z pr.2 = pr.1 :=
    fun pr hpr => mem_sortedPairs_F hpr
  match hsp : sortedPairs z r with
  | [] =>
    rw [hsp] at hlen
    simp at hlen
    omega
  | hd :: tl =>
    rw [hsp] at hchain hmemF hlo hhi
    have hb := npInterpAux_bound (F := integralAt z)
      (fun u v huv => integralAt_anti hz huv) (discErr_nonneg hz hr)
      tl hd (p * meshTotal z) hchain hmemF hlo hhi
    simp only [npInterp]
    exact hb

/-- Witness for C2 at z = [[1,2],[3,4]], resolution 4, percentile 0.9: the
returned threshold 4/3 masks an integral of 9 = 0.9 * 10 exactly, within the
discretization error. -/
theorem C2_contour_mass_property_witness :
    |integralAt [[1,2],[3,4]] (4/3) - (9/10) * meshTotal [[1,2],[3,4]]| ≤
      discErr [[1,2],[3,4]] 4 :=
  C2_contour_mass_property [[1,2],[3,4]] [9/10, 1/2] 4 [9/10, 1/2] [4/3, 32/9]
    (9/10) (4/3)
    (by norm_num)
    (by norm_num)
    (by norm_num [percentile_contour_values_from_meshz, sortedPairs, pairList,
      integralSeq, integralAt, tcand, meshMax, meshTotal, meshEntries, listMaxQ,
      sortDesc, npInterp, npInterpAux, knotLo, knotHi, List.insertionSort,
      List.orderedInsert, List.range_succ, pairLE, geQ])
    (by norm_num [List.zip_cons_cons])

/-- The total mass of a non-negative matrix is non-negative. -/
theorem meshTotal_nonneg {z : List (List ℚ)}
    (hz : ∀ row ∈ z, ∀ v ∈ row, 0 ≤ v) : 0 ≤ meshTotal z :=
  List.sum_nonneg (meshEntries_nonneg hz)

/-- On a knot chain with nonincreasing y values, the walk never exceeds the
head y value (for queries at or above the head x value). -/
theorem npInterpAux_le_head :
    ∀ (tl : List (ℚ × ℚ)) (hd : ℚ × ℚ) (q : ℚ),
      List.Chain' (fun a b => a.1 ≤ b.1 ∧ b.2 ≤ a.2) (hd :: tl) →
      hd.1 ≤ q → npInterpAux (hd :: tl) q ≤ hd.2 := by
  intro tl
  induction tl with
  | nil =>
    intro hd q _ _
    exact le_refl _
  | cons b t ih =>
    intro hd q hchain hlo
    rcases List.chain'_cons.mp hchain with ⟨⟨hx, hy⟩, hchain2⟩
    by_cases hq : q < b.1
    · have hdpos : 0 < b.1 - hd.1 := by
        have : hd.1 < b.1 := lt_of_le_of_lt hlo hq
        linarith
      have hdiv : 0 ≤ (q - hd.1) / (b.1 - hd.1) :=
        div_nonneg (by linarith) (le_of_lt hdpos)
      simp only [npInterpAux, if_pos hq]
      rw [mul_div_assoc]
      nlinarith [mul_nonneg hdiv (sub_nonneg.mpr hy)]
    · push_neg at hq
      simp only [npInterpAux, if_neg (not_lt.mpr hq)]
      exact le_trans (ih b q hchain2 hq) hy

/-- On a knot chain with nondecreasing x and nonincreasing y values, the walk
is antitone in the query. -/
theorem npInterpAux_anti :
    ∀ (tl : List (ℚ × ℚ)) (hd : ℚ × ℚ) (qa qb : ℚ),
      List.Chain' (fun a b => a.1 ≤ b.1 ∧ b.2 ≤ a.2) (hd :: tl) →
      hd.1 ≤ qa → qa ≤ qb →
      npInterpAux (hd :: tl) qb ≤ npInterpAux (hd :: tl) qa := by
  intro tl
  induction tl with
  | nil =>
    intro hd qa qb _ _ _
    exact le_refl _
  | cons b t ih =>
    intro hd qa qb hchain hlo hab
    rcases List.chain'_cons.mp hchain with ⟨⟨hx, hy⟩, hchain2⟩
    by_cases h1 : qb < b.1
    · have h2 : qa < b.1 := lt_of_le_of_lt hab h1
      have hdpos : 0 < b.1 - hd.1 := by
        have : hd.1 < b.1 := lt_of_le_of_lt hlo h2
        linarith
      simp only [npInterpAux, if_pos h1, if_pos h2]
      have hmul : (b.2 - hd.2) * (qb - hd.1) ≤ (b.2 - hd.2) * (qa - hd.1) :=
        mul_le_mul_of_nonpos_left (by linarith) (by linarith)
      have hdivle : (b.2 - hd.2) * (qb - hd.1) / (b.1 - hd.1) ≤
          (b.2 - hd.2) * (qa - hd.1) / (b.1 - hd.1) := by
        rw [div_eq_mul_inv, div_eq_mul_inv]
        exact mul_le_mul_of_nonneg_right hmul (inv_nonneg.mpr (le_of_lt hdpos))
      linarith
    · push_neg at h1
      by_cases h2 : qa < b.1
      · have hdpos : 0 < b.1 - hd.1 := by
          have : hd.1 < b.1 := lt_of_le_of_lt hlo h2
          linarith
        have hlam1 : (qa - hd.1) / (b.1 - hd.1) ≤ 1 := by
          rw [div_le_one hdpos]
          linarith
        have hvlo : b.2 ≤ hd.2 + (b.2 - hd.2) * ((qa - hd.1) / (b.1 - hd.1)) := by
          nlinarith [mul_nonneg (sub_nonneg.mpr hy) (sub_nonneg.mpr hlam1)]
        have hrec : npInterpAux (b :: t) qb ≤ b.2 :=
          npInterpAux_le_head t b qb hchain2 h1
        simp only [npInterpAux, if_pos h2, if_neg (not_lt.mpr h1)]
        rw [mul_div_assoc]
        linarith
      · push_neg at h2
        simp only [npInterpAux, if_neg (not_lt.mpr h1), if_neg (not_lt.mpr h2)]
        exact ih b qa qb hchain2 h2 hab

/-- When the integral array has no repeated values, the sorted knots are
strictly increasing in x and strictly decreasing in threshold. -/
theorem sortedPairs_chain_strict {z : List (List ℚ)} {r : ℕ}
    (hz : ∀ row ∈ z, ∀ v ∈ row, 0 ≤ v) (hr : 2 ≤ r)
    (hnd : (integralSeq z r).Nodup) :
    List.Chain' (fun a b : ℚ × ℚ => a.1 ≤ b.1 ∧ b.2 ≤ a.2)
      (sortedPairs z r) := by
  have hchain1 : List.Chain' pairLE (sortedPairs z r) :=
    (sortedPairs_sorted z r).chain'
  have hndm : ((sortedPairs z r).map Prod.fst).Nodup := by
    rw [map_fst_sortedPairs hz hr]
    exact List.nodup_reverse.mpr hnd
  have hpw : List.Pairwise (fun a b : ℚ × ℚ => a.1 ≠ b.1) (sortedPairs z r) := by
    have h0 : List.Pairwise Ne ((sortedPairs z r).map Prod.fst) := hndm
    exact List.pairwise_map.mp h0
  have hchainNe : List.Chain' (fun a b : ℚ × ℚ => a.1 ≠ b.1) (sortedPairs z r) :=
    hpw.chain'
  rw [List.chain'_iff_get]
  intro i hi
  have hle := (List.chain'_iff_get.mp hchain1) i hi
  have hne := (List.chain'_iff_get.mp hchainNe) i hi
  have hlt : ((sortedPairs z r).get ⟨i, by omega⟩).1 <
      ((sortedPairs z r).get ⟨i + 1, by omega⟩).1 := lt_of_le_of_ne hle hne
  refine ⟨hle, ?_⟩
  by_contra hc
  push_neg at hc
  have hF1 := mem_sortedPairs_F (List.get_mem (sortedPairs z r) i (by omega))
  have hF2 := mem_sortedPairs_F (List.get_mem (sortedPairs z r) (i + 1) (by omega))
  have hanti := integralAt_anti hz (le_of_lt hc)
  rw [hF1, hF2] at hanti
  linarith

/-- C4 amended claim: for a fixed non-negative density matrix whose integral
array has no repeated values at the given resolution (no plateau in the
integral), thresholds returned by percentile_contour_values_from_meshz are
antitone in the percentile: for achievable percentiles p1 < p2 the threshold
returned for p2 is at most the threshold returned for p1.  (With tied
integral values the inverse interpolation can jump upward across the plateau
and the original unconditional claim fails, see the counterexample.) -/
theorem C4_thresholds_antitone_in_percentile (z : List (List ℚ)) (ps : List ℚ)
    (r : ℕ) (ls ts : List ℚ) (p1 p2 t1 t2 : ℚ)
    (hz : ∀ row ∈ z, ∀ v ∈ row, 0 ≤ v) (hr : 2 ≤ r)
    (hnd : (integralSeq z r).Nodup)
    (hres : percentile_contour_values_from_meshz z ps r = ContourResult.levels ls ts)
    (hm1 : (p1, t1) ∈ ls.zip ts) (hm2 : (p2, t2) ∈ ls.zip ts)
    (h12 : p1 < p2) : t2 ≤ t1 := by
  rcases pcvfm_mem_zip hres hm1 with ⟨_, ht1, hlo1, hhi1⟩
  rcases pcvfm_mem_zip hres hm2 with ⟨_, ht2, hlo2, hhi2⟩
  subst ht1
  subst ht2
  have hT : 0 ≤ meshTotal z := meshTotal_nonneg hz
  have hq : p1 * meshTotal z ≤ p2 * meshTotal z :=
    mul_le_mul_of_nonneg_right (le_of_lt h12) hT
  have hchain := sortedPairs_chain_strict hz hr hnd
  have hlen : (sortedPairs z r).length = r := sortedPairs_length z r
  match hsp : sortedPairs z r with
  | [] =>
    rw [hsp] at hlen
    simp at hlen
    omega
  | hd :: tl =>
    rw [hsp] at hchain hlo1 hhi1 hlo2 hhi2
    simp only [npInterp]
    exact npInterpAux_anti tl hd (p1 * meshTotal z) (p2 * meshTotal z)
      hchain hlo1 hq

/-- Witness for the amended C4 at z = [[1,2],[3,4]], resolution 4,
percentiles {0.5, 0.9}. -/
theorem C4_thresholds_antitone_in_percentile_witness : (4:ℚ)/3 ≤ 32/9 :=
  C4_thresholds_antitone_in_percentile [[1,2],[3,4]] [9/10, 1/2] 4
    [9/10, 1/2] [4/3, 32/9] (1/2) (9/10) (32/9) (4/3)
    (by norm_num)
    (by norm_num)
    (by norm_num [integralSeq, integralAt, tcand, meshMax, meshTotal,
      meshEntries, listMaxQ, List.range_succ])
    (by norm_num [percentile_contour_values_from_meshz, sortedPairs, pairList,
      integralSeq, integralAt, tcand, meshMax, meshTotal, meshEntries, listMaxQ,
      sortDesc, npInterp, npInterpAux, knotLo, knotHi, List.insertionSort,
      List.orderedInsert, List.range_succ, pairLE, geQ])
    (by norm_num [List.zip_cons_cons])
    (by norm_num [List.zip_cons_cons])
    (by norm_num)

/-- C4 counterexample: at z = [[6,4,2]] with resolution 4 the integral array
is [12,12,10,6] (a plateau at 12).  The achievable percentiles 23/24 and 1
give targets 11.5 and 12; the interpolant returns threshold 1 for percentile
23/24 but threshold 2 for the LARGER percentile 1, so the threshold for the
larger percentile is not less than or equal to that of the smaller one. -/
theorem C4_counterexample :
    percentile_contour_values_from_meshz [[6,4,2]] [1, 23/24] 4 =
      ContourResult.levels [1, 23/24] [2, 1] ∧
    ((23:ℚ)/24 < 1) ∧ ¬ ((2:ℚ) ≤ (1:ℚ)) := by
  refine ⟨?_, by norm_num, by norm_num⟩
  norm_num [percentile_contour_values_from_meshz, sortedPairs, pairList,
    integralSeq, integralAt, tcand, meshMax, meshTotal, meshEntries, listMaxQ,
    sortDesc, npInterp, npInterpAux, knotLo, knotHi, List.insertionSort,
    List.orderedInsert, List.range_succ, pairLE, geQ]

/-- C5 amended claim: for a fixed non-negative density matrix whose integral
array has no repeated values at the given resolution, the threshold sequence
returned by percentile_contour_values_from_meshz (ordered by descending
percentile) is non-DEcreasing — each threshold is at least the one before it,
not at most as the original claim states. -/
theorem C5_thresholds_nondecreasing (z : List (List ℚ)) (ps : List ℚ)
    (r : ℕ) (ls ts : List ℚ)
    (hz : ∀ row ∈ z, ∀ v ∈ row, 0 ≤ v) (hr : 2 ≤ r)
    (hnd : (integralSeq z r).Nodup)
    (hres : percentile_contour_values_from_meshz z ps r = ContourResult.levels ls ts) :
    List.Sorted (fun a b : ℚ => a ≤ b) ts := by
  rcases pcvfm_levels_inv hres with ⟨hrange, _, hts⟩
  subst hts
  rw [List.map_map]
  refine List.pairwise_map.mpr ?_
  have hsorted : List.Sorted geQ (sortDesc ps) :=
    List.sorted_insertionSort geQ ps
  refine List.Pairwise.imp_of_mem ?_ hsorted
  intro a b ha hb hab
  have hra := hrange _ (List.mem_map_of_mem _ ha)
  have hrb := hrange _ (List.mem_map_of_mem _ hb)
  have hchain := sortedPairs_chain_strict hz hr hnd
  have hlen : (sortedPairs z r).length = r := sortedPairs_length z r
  have hq : b * meshTotal z ≤ a * meshTotal z :=
    mul_le_mul_of_nonneg_right hab (meshTotal_nonneg hz)
  match hsp : sortedPairs z r with
  | [] =>
    rw [hsp] at hlen
    simp at hlen
    omega
  | hd :: tl =>
    rw [hsp] at hchain hra hrb
    simp only [Function.comp_apply, npInterp]
    exact npInterpAux_anti tl hd (b * meshTotal z) (a * meshTotal z)
      hchain hrb.1 hq

/-- Witness for the amended C5 at z = [[1,2],[3,4]], resolution 4,
percentiles {0.9, 0.5}: the returned thresholds [4/3, 32/9] are
non-decreasing. -/
theorem C5_thresholds_nondecreasing_witness :
    List.Sorted (fun a b : ℚ => a ≤ b) [4/3, 32/9] :=
  C5_thresholds_nondecreasing [[1,2],[3,4]] [9/10, 1/2] 4 [9/10, 1/2]
    [4/3, 32/9]
    (by norm_num)
    (by norm_num)
    (by norm_num [integralSeq, integralAt, tcand, meshMax, meshTotal,
      meshEntries, listMaxQ, List.range_succ])
    (by norm_num [percentile_contour_values_from_meshz, sortedPairs, pairList,
      integralSeq, integralAt, tcand, meshMax, meshTotal, meshEntries, listMaxQ,
      sortDesc, npInterp, npInterpAux, knotLo, knotHi, List.insertionSort,
      List.orderedInsert, List.range_succ, pairLE, geQ])

/-- C5 counterexample: at z = [[1,2],[3,4]], resolution 4, percentiles
{0.9, 0.5}, the solver returns thresholds [4/3, 32/9] for the descending
percentile order [0.9, 0.5]; 32/9 > 4/3, so each returned threshold is NOT
less than or equal to the one before it — the returned sequence increases. -/
theorem C5_counterexample :
    percentile_contour_values_from_meshz [[1,2],[3,4]] [9/10, 1/2] 4 =
      ContourResult.levels [9/10, 1/2] [4/3, 32/9] ∧
    ¬ ((32:ℚ)/9 ≤ 4/3) := by
  refine ⟨?_, by norm_num⟩
  norm_num [percentile_contour_values_from_meshz, sortedPairs, pairList,
    integralSeq, integralAt, tcand, meshMax, meshTotal, meshEntries, listMaxQ,
    sortDesc, npInterp, npInterpAux, knotLo, knotHi, List.insertionSort,
    List.orderedInsert, List.range_succ, pairLE, geQ]

/-- C3 amended claim: when a requested percentile's target integral falls
below the smallest computed integral AND at least one computed integral is not
within np.isclose tolerance of 1, percentile_contour_values_from_meshz does
not raise: it returns the "min"-labelled level (with its diagnostic log
entry), whose threshold interpolates the LARGEST computed integral value not
close to 1 — not the achievable minimum integral value that the claim names.
(Without that non-empty-selection proviso the no-raise part is also false:
when every integral is close to 1 the except branch itself raises an uncaught
ValueError from np.nanmax on the empty selection — see the counterexample.) -/
theorem C3_min_label_degradation (z : List (List ℚ)) (ps : List ℚ) (r : ℕ)
    (p : ℚ) (hp : p ∈ ps)
    (hbelow : p * meshTotal z < knotLo (sortedPairs z r))
    (hne : nonOne z r ≠ []) :
    percentile_contour_values_from_meshz z ps r =
      ContourResult.minLevel
        (npInterp (sortedPairs z r) (listMaxQ (nonOne z r))) := by
  simp only [percentile_contour_values_from_meshz]
  have hnall : ¬ ∀ q ∈ (sortDesc ps).map (fun p => p * meshTotal z),
      knotLo (sortedPairs z r) ≤ q ∧ q ≤ knotHi (sortedPairs z r) := by
    intro hall
    have hmem : p * meshTotal z ∈ (sortDesc ps).map (fun p => p * meshTotal z) :=
      List.mem_map_of_mem _ ((List.perm_insertionSort geQ ps).mem_iff.mpr hp)
    have := (hall _ hmem).1
    linarith
  rw [if_neg hnall, if_neg hne]

/-- Witness for the amended C3 at z = [[1/2, 3/10, 1/5]], resolution 6,
requested percentile 0.45 (target 0.45 < minimum achievable integral 0.5, and
the non-one integral selection [4/5, 1/2, 1/2] is non-empty). -/
theorem C3_min_label_degradation_witness :
    percentile_contour_values_from_meshz [[1/2, 3/10, 1/5]] [9/20] 6 =
      ContourResult.minLevel
        (npInterp (sortedPairs [[1/2, 3/10, 1/5]] 6)
          (listMaxQ (nonOne [[1/2, 3/10, 1/5]] 6))) :=
  C3_min_label_degradation [[1/2, 3/10, 1/5]] [9/20] 6 (9/20)
    (by norm_num)
    (by norm_num [sortedPairs, pairList, integralSeq, integralAt, tcand,
      meshMax, meshTotal, meshEntries, listMaxQ, knotLo, List.insertionSort,
      List.orderedInsert, List.range_succ, pairLE])
    (by
      norm_num [nonOne, integralSeq, integralAt, tcand, meshMax, meshTotal,
        meshEntries, listMaxQ, List.range_succ, isCloseOne, List.filter_cons,
        List.filter_nil, decide_eq_true_eq, abs_of_neg, abs_of_nonneg,
        sub_nonneg]
      exact List.cons_ne_nil _ _)

/-- C3 counterexample, refuting the claim on both counts.  First: at
z = [[1/2, 3/10, 1/5]] (total mass 1), resolution 6, requested percentile
0.45, the integral array is [1, 1, 1, 4/5, 1/2, 1/2] and the target 0.45 is
below the achievable minimum integral 1/2; the solver returns the "min" level
with threshold 3/10 — the interpolant at the LARGEST non-one integral 4/5
(indeed the integral at the returned threshold is 4/5) — whereas substituting
the achievable minimum integral value 1/2, as the claim describes, would give
threshold 1/2.  Second: the no-raise part is not universal: at
z = [[1/2, 1/2]], resolution 2, requested percentile 0.9 the target 0.9 is
below the minimum computed integral 1, but every integral is close to 1, the
non-one selection is empty, and np.nanmax raises an uncaught ValueError
instead of returning a "min" level. -/
theorem C3_counterexample :
    percentile_contour_values_from_meshz [[1/2, 3/10, 1/5]] [9/20] 6 =
      ContourResult.minLevel (3/10) ∧
    listMinQ (integralSeq [[1/2, 3/10, 1/5]] 6) = 1/2 ∧
    integralAt [[1/2, 3/10, 1/5]] (3/10) = 4/5 ∧
    npInterp (sortedPairs [[1/2, 3/10, 1/5]] 6) (1/2) = 1/2 ∧
    ((3:ℚ)/10) ≠ 1/2 ∧
    ((9:ℚ)/10) * meshTotal [[1/2, 1/2]] < knotLo (sortedPairs [[1/2, 1/2]] 2) ∧
    percentile_contour_values_from_meshz [[1/2, 1/2]] [9/10] 2 =
      ContourResult.nanmaxError := by
  refine ⟨?_, ?_, ?_, ?_, by norm_num, ?_, ?_⟩
  · norm_num [percentile_contour_values_from_meshz, sortedPairs, pairList,
      integralSeq, integralAt, tcand, meshMax, meshTotal, meshEntries, listMaxQ,
      sortDesc, npInterp, npInterpAux, knotLo, knotHi, List.insertionSort,
      List.orderedInsert, List.range_succ, pairLE, geQ, nonOne, isCloseOne,
      List.filter_cons, List.filter_nil, decide_eq_true_eq, abs_of_neg,
      abs_of_nonneg, sub_nonneg]
    intro h
    exact absurd h (List.cons_ne_nil _ _)
  · norm_num [integralSeq, integralAt, tcand, meshMax, meshTotal, meshEntries,
      listMaxQ, listMinQ, List.range_succ]
  · norm_num [integralAt, meshEntries]
  · norm_num [sortedPairs, pairList, integralSeq, integralAt, tcand, meshMax,
      meshTotal, meshEntries, listMaxQ, npInterp, npInterpAux,
      List.insertionSort, List.orderedInsert, List.range_succ, pairLE]
  · norm_num [sortedPairs, pairList, integralSeq, integralAt, tcand, meshMax,
      meshTotal, meshEntries, listMaxQ, knotLo, List.insertionSort,
      List.orderedInsert, List.range_succ, pairLE]
  · norm_num [percentile_contour_values_from_meshz, sortedPairs, pairList,
      integralSeq, integralAt, tcand, meshMax, meshTotal, meshEntries, listMaxQ,
      sortDesc, npInterp, npInterpAux, knotLo, knotHi, List.insertionSort,
      List.orderedInsert, List.range_succ, pairLE, geQ, nonOne, isCloseOne,
      List.filter_cons, List.filter_nil, decide_eq_true_eq, abs_of_neg,
      abs_of_nonneg, sub_nonneg]

/-- C9: serializing the record {Title: "A", SiO2: 50.2, Initial Temperature:
1200, MgO: NaN} with to_meltsfile produces exactly the three lines for the
non-NaN fields (the NaN field is omitted entirely), and parsing the produced
text recovers exactly the same key-to-value pairs, with the numeric fields
recovered as numbers (50.2 = 251/5 and 1200). -/
theorem C9_meltsfile_roundtrip :
    to_meltsfile ser9 true [] [] =
      str2l ("Title: A\nInitial Composition: SiO2 50.2\nInitial Temperature: 1200") ∧
    parseMeltsText (to_meltsfile ser9 true [] []) =
      [(str2l ("Title"), MeltsVal.mstr (str2l ("A"))),
       (str2l ("SiO2"), MeltsVal.mnum (251/5)),
       (str2l ("Initial Temperature"), MeltsVal.mnum 1200)] := by
  have hA : to_meltsfile ser9 true [] [] =
      str2l ("Title: A\nInitial Composition: SiO2 50.2\nInitial Temperature: 1200") := by
    decide
  refine ⟨hA, ?_⟩
  rw [hA]
  have hrows : parseMeltsRows (str2l
        ("Title: A\nInitial Composition: SiO2 50.2\nInitial Temperature: 1200")) =
      [(str2l ("Title"), str2l ("A")), (str2l ("SiO2"), str2l ("50.2")),
       (str2l ("Initial Temperature"), str2l ("1200"))] := by
    decide
  have hcA : coerceVal (str2l ("A")) = MeltsVal.mstr (str2l ("A")) := by decide
  have hc50 : coerceVal (str2l ("50.2")) = MeltsVal.mnum (251/5) := by
    have h2 : splitOnL ['.'] (str2l ("50.2")) = [str2l ("50"), str2l ("2")] := by
      decide
    have h3 : digitsToNat (str2l ("50")) = some 50 := by decide
    have h4 : digitsToNat (str2l ("2")) = some 2 := by decide
    simp only [coerceVal, parseDecimal, parseDecimalCore, str2l] at h2 h3 h4 ⊢
    norm_num [h2, h3, h4]
    rw [if_neg (by decide), if_neg (by decide)]
  have hc12 : coerceVal (str2l ("1200")) = MeltsVal.mnum 1200 := by
    have h2 : splitOnL ['.'] (str2l ("1200")) = [str2l ("1200")] := by decide
    have h3 : digitsToNat (str2l ("1200")) = some 1200 := by decide
    simp only [coerceVal, parseDecimal, parseDecimalCore, str2l] at h2 h3 ⊢
    norm_num [h2, h3]
    rw [if_neg (by decide), if_neg (by decide)]
  unfold parseMeltsText
  rw [hrows]
  simp only [List.map]
  rw [hcA, hc50, hc12]

/-- C10: for a str argument naming an existing readable file, from_meltsfile
raises AttributeError instead of returning the parsed record — the file-path
branch calls .read() on the path string rather than on the opened handle —
while BytesIO/StringIO buffers and raw meltsfile text in a str (for which
open fails with FileNotFoundError) are actually parsed. -/
theorem C10_from_meltsfile_existing_path_attribute_error
    (fe : List Char → Bool) (s : List Char) :
    (fe s = true →
      from_meltsfile fe (MeltsSource.textOrPath s) = PyOutcome.attributeError) ∧
    (fe s = false →
      from_meltsfile fe (MeltsSource.textOrPath s) =
        PyOutcome.ok (parseMeltsText s)) ∧
    from_meltsfile fe (MeltsSource.bytesBuf s) = PyOutcome.ok (parseMeltsText s) ∧
    from_meltsfile fe (MeltsSource.strBuf s) = PyOutcome.ok (parseMeltsText s) := by
  refine ⟨?_, ?_, rfl, rfl⟩
  · intro h
    simp [from_meltsfile, h]
  · intro h
    simp [from_meltsfile, h]

/-- Witness for C10 on a filesystem where every path exists, at the path
"batch.melts". -/
theorem C10_from_meltsfile_existing_path_attribute_error_witness :
    ((fun _ => true) (str2l ("batch.melts")) = true →
      from_meltsfile (fun _ => true) (MeltsSource.textOrPath (str2l ("batch.melts"))) =
        PyOutcome.attributeError) ∧
    ((fun _ => true) (str2l ("batch.melts")) = false →
      from_meltsfile (fun _ => true) (MeltsSource.textOrPath (str2l ("batch.melts"))) =
        PyOutcome.ok (parseMeltsText (str2l ("batch.melts")))) ∧
    from_meltsfile (fun _ => true) (MeltsSource.bytesBuf (str2l ("batch.melts"))) =
      PyOutcome.ok (parseMeltsText (str2l ("batch.melts"))) ∧
    from_meltsfile (fun _ => true) (MeltsSource.strBuf (str2l ("batch.melts"))) =
      PyOutcome.ok (parseMeltsText (str2l ("batch.melts"))) :=
  C10_from_meltsfile_existing_path_attribute_error (fun _ => true)
    (str2l ("batch.melts"))

/-- Closure is the identity on rows that already sum to 1. -/
theorem close3_of_sum_one {α : Type} [Field α] {p : α × α × α}
    (h : p.1 + p.2.1 + p.2.2 = 1) : close3 p = p := by
  unfold close3
  rw [h]
  simp

/-- The seed bounds a polymorphic max fold from below. -/
theorem le_foldr_maxA_seed {α : Type} [LinearOrderedField α] (b : α) :
    ∀ (t : List α), b ≤ t.foldr max b := by
  intro t
  induction t with
  | nil => exact le_refl b
  | cons c t2 ih => exact le_trans ih (le_max_right c _)

/-- Members bound a polymorphic max fold from below. -/
theorem le_foldr_maxA_mem {α : Type} [LinearOrderedField α] {a : α} (b : α) :
    ∀ {t : List α}, a ∈ t → a ≤ t.foldr max b := by
  intro t
  induction t with
  | nil => intro h; cases h
  | cons c t2 ih =>
    intro hm
    rcases List.mem_cons.mp hm with rfl | hm
    · exact le_max_left a _
    · exact le_trans (ih hm) (le_max_right c _)

/-- Members of a list bound its listMaxA from below. -/
theorem le_listMaxA {α : Type} [LinearOrderedField α] {a : α} {l : List α}
    (h : a ∈ l) : a ≤ listMaxA l := by
  match l with
  | [] => cases h
  | c :: t =>
    rcases List.mem_cons.mp h with rfl | hm
    · exact le_foldr_maxA_seed a t
    · exact le_foldr_maxA_mem c hm

/-- The seed bounds a polymorphic min fold from above. -/
theorem foldr_minA_seed_le {α : Type} [LinearOrderedField α] (b : α) :
    ∀ (t : List α), t.foldr min b ≤ b := by
  intro t
  induction t with
  | nil => exact le_refl b
  | cons c t2 ih => exact le_trans (min_le_right c _) ih

/-- A polymorphic min fold is bounded above by every member. -/
theorem foldr_minA_mem_le {α : Type} [LinearOrderedField α] {a : α} (b : α) :
    ∀ {t : List α}, a ∈ t → t.foldr min b ≤ a := by
  intro t
  induction t with
  | nil => intro h; cases h
  | cons c t2 ih =>
    intro hm
    rcases List.mem_cons.mp hm with rfl | hm
    · exact min_le_left a _
    · exact le_trans (min_le_right c _) (ih hm)

/-- Members of a list bound its listMinA from above. -/
theorem listMinA_le {α : Type} [LinearOrderedField α] {a : α} {l : List α}
    (h : a ∈ l) : listMinA l ≤ a := by
  match l with
  | [] => cases h
  | c :: t =>
    rcases List.mem_cons.mp h with rfl | hm
    · exact foldr_minA_seed_le a t
    · exact foldr_minA_mem_le c hm

/-- A min fold over positive values with a positive seed is positive. -/
theorem foldr_minA_pos {α : Type} [LinearOrderedField α] {c : α} (hc : 0 < c) :
    ∀ {t : List α}, (∀ v ∈ t, 0 < v) → 0 < t.foldr min c := by
  intro t
  induction t with
  | nil => intro _; exact hc
  | cons b t2 ih =>
    intro hp
    refine lt_min (hp b (List.mem_cons_self _ _)) ?_
    exact ih (fun v hv => hp v (List.mem_cons_of_mem _ hv))

/-- The minimum of a nonempty list of positive values is positive. -/
theorem listMinA_pos {α : Type} [LinearOrderedField α] {l : List α}
    (hne : l ≠ []) (hp : ∀ v ∈ l, 0 < v) : 0 < listMinA l := by
  match l with
  | [] => exact absurd rfl hne
  | c :: t =>
    show 0 < t.foldr min c
    exact foldr_minA_pos (hp c (List.mem_cons_self _ _))
      (fun v hv => hp v (List.mem_cons_of_mem _ hv))

/-- ABC_to_xy written out on a row that sums to 1. -/
theorem ABC_to_xy_of_sum_one {α : Type} [Field α] {p : α × α × α} (xs s : α)
    (h : p.1 + p.2.1 + p.2.2 = 1) :
    ABC_to_xy p xs s = (xs * (p.1 + p.2.1 / 2), s * p.2.1) := by
  unfold ABC_to_xy
  rw [close3_of_sum_one h]

/-- The Cartesian corners of the rendered region, written out. -/
theorem cornersXY_eq {α : Type} [Field α] (m s : α) :
    cornersXY m s =
      [(m + m / 2, s * m), (m + (1 - 2 * m) / 2, s * (1 - 2 * m)),
       (1 - 2 * m + m / 2, s * m)] := by
  unfold cornersXY boundsRows
  simp only [List.map]
  rw [ABC_to_xy_of_sum_one 1 s (by ring), ABC_to_xy_of_sum_one 1 s (by ring),
    ABC_to_xy_of_sum_one 1 s (by ring)]
  simp

/-- C8 amended claim: with force_margin unset, ternary_heatmap clamps the
margin to at most the smallest positive value present in the (closed) data;
for every dataset containing a positive entry and every supplied margin in
(0, ...) whose clamped value is not exactly 1/3, the clamped margin is
positive and the rendered corner region is non-degenerate: its Cartesian
x span and y span are nonzero.  (At clamped margin exactly 1/3 the corners
collapse to one point — see the counterexample.) -/
theorem C8_margin_clamp {α : Type} [LinearOrderedField α]
    (data : List (α × α × α)) (margin s : α)
    (hm : 0 < margin) (hs : 0 < s)
    (hpos : ∃ v ∈ rowEntries (closeRows data), 0 < v)
    (hne : effMargin data margin ≠ 1 / 3) :
    0 < effMargin data margin ∧
    effMargin data margin ≤ minPositive (closeRows data) ∧
    spanX (effMargin data margin) s ≠ 0 ∧
    spanY (effMargin data margin) s ≠ 0 := by
  rcases hpos with ⟨v, hv, hv0⟩
  have hminpos : 0 < minPositive (closeRows data) := by
    refine listMinA_pos ?_ ?_
    · intro hnil
      have : v ∈ (rowEntries (closeRows data)).filter (fun v => decide (0 < v)) :=
        List.mem_filter.mpr ⟨hv, decide_eq_true hv0⟩
      rw [hnil] at this
      cases this
    · intro w hw
      exact of_decide_eq_true (List.mem_filter.mp hw).2
  refine ⟨lt_min hm hminpos, min_le_right _ _, ?_, ?_⟩
  all_goals
    set m := effMargin data margin with hmdef
    have hxmem1 : (m + m / 2, s * m) ∈ cornersXY m s := by
      rw [cornersXY_eq]; simp
    have hxmem2 : (m + (1 - 2 * m) / 2, s * (1 - 2 * m)) ∈ cornersXY m s := by
      rw [cornersXY_eq]; simp
    have hxmem3 : (1 - 2 * m + m / 2, s * m) ∈ cornersXY m s := by
      rw [cornersXY_eq]; simp
    rcases lt_or_gt_of_ne hne with hlt | hgt
  · -- spanX, m < 1/3
    have h1 : (1 - 2 * m + m / 2 : α) ≤ listMaxA ((cornersXY m s).map (fun q => q.1)) :=
      le_listMaxA (List.mem_map_of_mem _ hxmem3)
    have h2 : listMinA ((cornersXY m s).map (fun q => q.1)) ≤ m + m / 2 :=
      listMinA_le (List.mem_map_of_mem _ hxmem1)
    have : (0 : α) < spanX m s := by
      unfold spanX
      have h3 : (0 : α) < 1 - 3 * m := by linarith
      linarith
    exact ne_of_gt this
  · -- spanX, m > 1/3
    have h1 : (m + m / 2 : α) ≤ listMaxA ((cornersXY m s).map (fun q => q.1)) :=
      le_listMaxA (List.mem_map_of_mem _ hxmem1)
    have h2 : listMinA ((cornersXY m s).map (fun q => q.1)) ≤ 1 - 2 * m + m / 2 :=
      listMinA_le (List.mem_map_of_mem _ hxmem3)
    have : (0 : α) < spanX m s := by
      unfold spanX
      have h3 : (0 : α) < 3 * m - 1 := by linarith
      linarith
    exact ne_of_gt this
  · -- spanY, m < 1/3
    have h1 : (s * (1 - 2 * m) : α) ≤ listMaxA ((cornersXY m s).map (fun q => q.2)) :=
      le_listMaxA (List.mem_map_of_mem _ hxmem2)
    have h2 : listMinA ((cornersXY m s).map (fun q => q.2)) ≤ s * m :=
      listMinA_le (List.mem_map_of_mem _ hxmem1)
    have : (0 : α) < spanY m s := by
      unfold spanY
      have h3 : (0 : α) < s * (1 - 2 * m) - s * m := by
        have : (0 : α) < s * (1 - 3 * m) := mul_pos hs (by linarith)
        linarith [this]
      linarith
    exact ne_of_gt this
  · -- spanY, m > 1/3
    have h1 : (s * m : α) ≤ listMaxA ((cornersXY m s).map (fun q => q.2)) :=
      le_listMaxA (List.mem_map_of_mem _ hxmem1)
    have h2 : listMinA ((cornersXY m s).map (fun q => q.2)) ≤ s * (1 - 2 * m) :=
      listMinA_le (List.mem_map_of_mem _ hxmem2)
    have : (0 : α) < spanY m s := by
      unfold spanY
      have h3 : (0 : α) < s * m - s * (1 - 2 * m) := by
        have : (0 : α) < s * (3 * m - 1) := mul_pos hs (by linarith)
        linarith [this]
      linarith
    exact ne_of_gt this

/-- Witness for C8 at the on-vertex dataset [(1,0,0)], margin 0.01,
unit yscale, over ℚ. -/
theorem C8_margin_clamp_witness :
    0 < effMargin [((1:ℚ), 0, 0)] (1/100) ∧
    effMargin [((1:ℚ), 0, 0)] (1/100) ≤ minPositive (closeRows [((1:ℚ), 0, 0)]) ∧
    spanX (effMargin [((1:ℚ), 0, 0)] (1/100)) 1 ≠ 0 ∧
    spanY (effMargin [((1:ℚ), 0, 0)] (1/100)) 1 ≠ 0 :=
  C8_margin_clamp [((1:ℚ), 0, 0)] (1/100) 1
    (by norm_num)
    (by norm_num)
    (by
      refine ⟨1, ?_, by norm_num⟩
      norm_num [rowEntries, closeRows, close3])
    (by norm_num [effMargin, minPositive, rowEntries, closeRows, close3,
      listMinA, List.filter_cons, List.filter_nil, decide_eq_true_eq])

/-- C8 counterexample: at the on-vertex dataset [(1,0,0)] with supplied
margin 1/3 (force_margin unset) the clamp leaves the margin at 1/3, and the
rendered corner region degenerates to a single point: both spans are zero,
so the computed bounds are NOT non-degenerate for every supplied margin. -/
theorem C8_counterexample :
    effMargin [((1:ℚ), 0, 0)] (1/3) = 1/3 ∧
    spanX (effMargin [((1:ℚ), 0, 0)] (1/3)) 1 = 0 ∧
    spanY (effMargin [((1:ℚ), 0, 0)] (1/3)) 1 = 0 := by
  have hm : effMargin [((1:ℚ), 0, 0)] (1/3) = 1/3 := by
    norm_num [effMargin, minPositive, rowEntries, closeRows, close3,
      listMinA, List.filter_cons, List.filter_nil, decide_eq_true_eq]
  refine ⟨hm, ?_, ?_⟩ <;>
  · rw [hm]
    norm_num [spanX, spanY, cornersXY, boundsRows, ABC_to_xy, close3,
      listMaxA, listMinA]

/-- Sum of a pointwise sum of maps. -/
theorem sum_map_add_nat {β : Type} (l : List β) (f g : β → ℕ) :
    (l.map (fun x => f x + g x)).sum = (l.map f).sum + (l.map g).sum := by
  induction l with
  | nil => rfl
  | cons a t ih =>
    simp only [List.map, List.sum_cons, ih]
    omega

/-- The sum of the indicator of one index over an index range is 1. -/
theorem sum_indicator_range (I i0 : ℕ) (h : i0 < I) :
    ((List.range I).map (fun i => if i = i0 then 1 else 0)).sum = 1 := by
  induction I with
  | zero => omega
  | succ n ih =>
    rw [List.range_succ, List.map_append, List.sum_append]
    by_cases hi : i0 = n
    · subst hi
      have hz : ((List.range i0).map (fun i => if i = i0 then 1 else 0)).sum = 0 := by
        refine List.sum_eq_zero ?_
        intro x hx
        rcases List.mem_map.mp hx with ⟨i, hi2, rfl⟩
        have : i < i0 := List.mem_range.mp hi2
        simp
        omega
      simp [hz]
    · have hlt : i0 < n := by omega
      rw [ih hlt]
      have : ¬ (n = i0) := fun h2 => hi h2.symm
      simp [this]

/-- Each point with in-range bin indices contributes exactly once to the
total of the per-cell counts: the grid of filtered counts sums to the number
of points. -/
theorem grid_count_sum {β : Type} (f g : β → Option ℕ) (I J : ℕ) :
    ∀ (pts : List β),
      (∀ p ∈ pts, ∃ j, j < J ∧ f p = some j) →
      (∀ p ∈ pts, ∃ i, i < I ∧ g p = some i) →
      ((List.range I).map (fun i =>
        ((List.range J).map (fun j =>
          (pts.filter (fun p => decide (f p = some j ∧ g p = some i))).length)).sum)).sum
        = pts.length := by
  intro pts
  induction pts with
  | nil =>
    intro _ _
    simp
  | cons p rest ih =>
    intro hf hg
    rcases hf p (List.mem_cons_self _ _) with ⟨j0, hj0, hfp⟩
    rcases hg p (List.mem_cons_self _ _) with ⟨i0, hi0, hgp⟩
    have hrest := ih (fun q hq => hf q (List.mem_cons_of_mem _ hq))
      (fun q hq => hg q (List.mem_cons_of_mem _ hq))
    have hcell : ∀ i j, ((p :: rest).filter
        (fun q => decide (f q = some j ∧ g q = some i))).length =
        (fun j => if f p = some j ∧ g p = some i then 1 else 0) j +
        (fun j => (rest.filter
          (fun q => decide (f q = some j ∧ g q = some i))).length) j := by
      intro i j
      rw [List.filter_cons]
      by_cases hc : f p = some j ∧ g p = some i
      · simp [hc]
        omega
      · simp [hc]
    have hinner : ∀ i, ((List.range J).map (fun j =>
        ((p :: rest).filter
          (fun q => decide (f q = some j ∧ g q = some i))).length)).sum =
        ((List.range J).map (fun j => if f p = some j ∧ g p = some i then 1 else 0)).sum +
        ((List.range J).map (fun j => (rest.filter
          (fun q => decide (f q = some j ∧ g q = some i))).length)).sum := by
      intro i
      have : ((List.range J).map (fun j =>
          ((p :: rest).filter
            (fun q => decide (f q = some j ∧ g q = some i))).length)) =
          ((List.range J).map (fun j =>
            (fun j => if f p = some j ∧ g p = some i then 1 else 0) j +
            (fun j => (rest.filter
              (fun q => decide (f q = some j ∧ g q = some i))).length) j)) := by
        refine List.map_congr_left ?_
        intro j _
        exact hcell i j
      rw [this, sum_map_add_nat]
    have hindJ : ∀ i, ((List.range J).map
        (fun j => if f p = some j ∧ g p = some i then 1 else 0)).sum =
        if g p = some i then 1 else 0 := by
      intro i
      by_cases hgi : g p = some i
      · rw [if_pos hgi]
        have heq : ((List.range J).map
            (fun j => if f p = some j ∧ g p = some i then 1 else 0)) =
            ((List.range J).map (fun j => if j = j0 then 1 else 0)) := by
          refine List.map_congr_left ?_
          intro j _
          by_cases hj : j = j0
          · subst hj
            simp [hfp, hgi]
          · have : ¬ (f p = some j) := by
              rw [hfp]
              intro hcontra
              exact hj (Option.some.injEq j0 j ▸ hcontra :).symm
            simp [this, hj]
        rw [heq, sum_indicator_range J j0 hj0]
      · rw [if_neg hgi]
        refine List.sum_eq_zero ?_
        intro x hx
        rcases List.mem_map.mp hx with ⟨j, _, rfl⟩
        simp [hgi]
    have houter : ((List.range I).map (fun i =>
        ((List.range J).map (fun j =>
          ((p :: rest).filter
            (fun q => decide (f q = some j ∧ g q = some i))).length)).sum)).sum =
        ((List.range I).map (fun i => if g p = some i then 1 else 0)).sum +
        ((List.range I).map (fun i => ((List.range J).map (fun j =>
          (rest.filter
            (fun q => decide (f q = some j ∧ g q = some i))).length)).sum)).sum := by
      have : ((List.range I).map (fun i =>
          ((List.range J).map (fun j =>
            ((p :: rest).filter
              (fun q => decide (f q = some j ∧ g q = some i))).length)).sum)) =
          ((List.range I).map (fun i =>
            (fun i => if g p = some i then 1 else 0) i +
            (fun i => ((List.range J).map (fun j =>
              (rest.filter
                (fun q => decide (f q = some j ∧ g q = some i))).length)).sum) i)) := by
        refine List.map_congr_left ?_
        intro i _
        rw [hinner i, hindJ i]
      rw [this, sum_map_add_nat]
    rw [houter, hrest]
    have hindI : ((List.range I).map (fun i => if g p = some i then 1 else 0)).sum = 1 := by
      have heq : ((List.range I).map (fun i => if g p = some i then 1 else 0)) =
          ((List.range I).map (fun i => if i = i0 then 1 else 0)) := by
        refine List.map_congr_left ?_
        intro i _
        by_cases hi : i = i0
        · subst hi
          simp [hgp]
        · have : ¬ (g p = some i) := by
            rw [hgp]
            intro hcontra
            exact hi (Option.some.injEq i0 i ▸ hcontra :).symm
          simp [this, hi]
      rw [heq, sum_indicator_range I i0 hi0]
    rw [hindI]
    simp [List.length_cons]
    omega

/-- For strictly increasing edges (length at least 2), every value inside the
edge range falls into a bin whose index the histogram walk returns. -/
theorem binIndexL_total {α : Type} [LinearOrderedField α] :
    ∀ (edges : List α) (x : α), 2 ≤ edges.length →
      List.Chain' (fun a b => a < b) edges →
      edges.headD 0 ≤ x → x ≤ edges.getLastD 0 →
      ∃ j, j < edges.length - 1 ∧ binIndexL edges x = some j := by
  intro edges
  induction edges with
  | nil =>
    intro x hlen _ _ _
    simp at hlen
  | cons e0 tail ih =>
    intro x hlen hchain hlo hhi
    rcases tail with _ | ⟨e1, tail2⟩
    · simp at hlen
    · rcases tail2 with _ | ⟨e2, rest⟩
      · refine ⟨0, by simp, ?_⟩
        have hhi2 : x ≤ e1 := by simpa using hhi
        have hlo2 : e0 ≤ x := by simpa using hlo
        simp only [binIndexL]
        rw [if_pos ⟨hlo2, hhi2⟩]
      · rcases List.chain'_cons.mp hchain with ⟨h01, hchain2⟩
        by_cases hx : x < e1
        · refine ⟨0, by simp, ?_⟩
          have hlo2 : e0 ≤ x := by simpa using hlo
          simp only [binIndexL]
          rw [if_pos ⟨hlo2, hx⟩]
        · push_neg at hx
          have hhi2 : x ≤ (e1 :: e2 :: rest).getLastD 0 := by
            simpa [List.getLastD_cons] using hhi
          rcases ih x (by simp) hchain2 (by simpa using hx) hhi2 with ⟨j, hj, hbin⟩
          refine ⟨j + 1, ?_, ?_⟩
          · simp only [List.length_cons] at hj ⊢
            omega
          · simp only [binIndexL]
            rw [if_neg (fun hcontra => absurd hcontra.2 (not_lt.mpr hx)), hbin]
            rfl

/-- Background removal does not change the total count: the non-NaN cells of
the returned matrix sum to the total of the histogram. -/
theorem removeBackground_sum (H : List (List ℕ)) :
    ((removeBackground H).map (fun row => (row.filterMap id).sum)).sum =
      (H.map List.sum).sum := by
  have hrow : ∀ (row : List ℕ),
      ((row.map (fun n => if n = 0 then none else some n)).filterMap id).sum =
        row.sum := by
    intro row
    induction row with
    | nil => rfl
    | cons n t iht =>
      by_cases hn : n = 0
      · subst hn
        simp only [List.map, List.filterMap_cons, id_eq, if_pos rfl]
        simpa using iht
      · simp only [List.map, List.filterMap_cons, id_eq, if_neg hn]
        simp only [List.sum_cons]
        rw [iht]
  unfold removeBackground
  induction H with
  | nil => rfl
  | cons row t ihH =>
    simp only [List.map, List.sum_cons]
    rw [hrow row, ihH]

/-- np.linspace produces n points. -/
theorem linspaceL_length {α : Type} [Field α] (a b : α) (n : ℕ) :
    (linspaceL a b n).length = n := by
  unfold linspaceL
  rw [List.length_map, List.length_range]

/-- bin_centres_to_edges produces one more point than the centres. -/
theorem bin_centres_to_edges_length {α : Type} [Field α] (l : List α) :
    (bin_centres_to_edges l).length = l.length + 1 := by
  simp [bin_centres_to_edges]

/-- The C6 data rows are already closed. -/
theorem closeRows_data6 : closeRows data6 = data6 := by
  unfold closeRows data6
  simp only [List.map]
  rw [close3_of_sum_one (by norm_num), close3_of_sum_one (by norm_num)]

/-- The default margin 0.01 is below the smallest positive datum 0.1, so the
clamp leaves it unchanged. -/
theorem effMargin_data6 : effMargin data6 (1/100) = 1/100 := by
  unfold effMargin
  rw [closeRows_data6]
  have hmp : minPositive data6 = 1/10 := by
    unfold minPositive rowEntries data6
    norm_num [List.filter_cons, List.filter_nil, decide_eq_true_eq, listMinA,
      min_def]
  rw [hmp]
  norm_num

/-- The equilateral yscale is positive. -/
theorem yscaleEq_pos : 0 < yscaleEq :=
  div_pos (Real.sqrt_pos.mpr (by norm_num)) (by norm_num)

/-- The square of the equilateral yscale. -/
theorem yscaleEq_sq : yscaleEq ^ 2 = 3 / 4 := by
  unfold yscaleEq
  rw [div_pow, Real.sq_sqrt (by norm_num : (0:ℝ) ≤ 3)]
  norm_num

/-- The corner points of the C6 margin triangle as converter images. -/
theorem corners6 : cornersXY (1/100 : ℝ) yscaleEq =
    [ABC_to_xy (1/100, 1/100, 98/100) 1 yscaleEq,
     ABC_to_xy (1/100, 98/100, 1/100) 1 yscaleEq,
     ABC_to_xy (98/100, 1/100, 1/100) 1 yscaleEq] := by
  unfold cornersXY boundsRows
  norm_num

/-- First corner in Cartesian coordinates. -/
theorem cornerP1 : ABC_to_xy ((1:ℝ)/100, 1/100, 98/100) 1 yscaleEq =
    (3/200, yscaleEq * (1/100)) := by
  rw [ABC_to_xy_of_sum_one 1 yscaleEq (by norm_num)]
  norm_num

/-- Second corner in Cartesian coordinates. -/
theorem cornerP2 : ABC_to_xy ((1:ℝ)/100, 98/100, 1/100) 1 yscaleEq =
    (1/2, yscaleEq * (98/100)) := by
  rw [ABC_to_xy_of_sum_one 1 yscaleEq (by norm_num)]
  norm_num

/-- Third corner in Cartesian coordinates. -/
theorem cornerP3 : ABC_to_xy ((98:ℝ)/100, 1/100, 1/100) 1 yscaleEq =
    (197/200, yscaleEq * (1/100)) := by
  rw [ABC_to_xy_of_sum_one 1 yscaleEq (by norm_num)]
  norm_num

/-- The margin triangle is equilateral in Cartesian space: first side. -/
theorem dist6_12 : dist2D ((3:ℝ)/200, yscaleEq * (1/100))
    (1/2, yscaleEq * (98/100)) = 97/100 := by
  unfold dist2D
  have h : ((1:ℝ)/2 - 3/200) ^ 2 +
      (yscaleEq * (98/100) - yscaleEq * (1/100)) ^ 2 = (97/100) ^ 2 := by
    linear_combination (9409/10000 : ℝ) * yscaleEq_sq
  rw [h, Real.sqrt_sq (by norm_num)]

/-- Second side. -/
theorem dist6_23 : dist2D ((1:ℝ)/2, yscaleEq * (98/100))
    (197/200, yscaleEq * (1/100)) = 97/100 := by
  unfold dist2D
  have h : ((197:ℝ)/200 - 1/2) ^ 2 +
      (yscaleEq * (1/100) - yscaleEq * (98/100)) ^ 2 = (97/100) ^ 2 := by
    linear_combination (9409/10000 : ℝ) * yscaleEq_sq
  rw [h, Real.sqrt_sq (by norm_num)]

/-- Third side. -/
theorem dist6_31 : dist2D ((197:ℝ)/200, yscaleEq * (1/100))
    (3/200, yscaleEq * (1/100)) = 97/100 := by
  unfold dist2D
  have h : ((3:ℝ)/200 - 197/200) ^ 2 +
      (yscaleEq * (1/100) - yscaleEq * (1/100)) ^ 2 = (97/100) ^ 2 := by
    ring
  rw [h, Real.sqrt_sq (by norm_num)]

/-- Linear interpolation at parameter 0 is the first endpoint. -/
theorem lerp2_zero {α : Type} [Field α] (p q : α × α) : lerp2 p q 0 = p := by
  unfold lerp2
  simp

/-- Linear interpolation at parameter 1 is the second endpoint. -/
theorem lerp2_one {α : Type} [Field α] (p q : α × α) : lerp2 p q 1 = q := by
  unfold lerp2
  refine Prod.ext ?_ ?_ <;> ring

/-- Linear interpolation at a parameter equal to 1. -/
theorem lerp2_of_eq_one {α : Type} [Field α] (p q : α × α) {t : α}
    (h : t = 1) : lerp2 p q t = q := by
  rw [h]
  exact lerp2_one p q

/-- The C-heavy margin corner (parameter 0 hits the first loop point) is
among the barycentric boundary samples. -/
theorem sample6_C : ((1:ℝ)/100, 1/100, 98/100) ∈ hmSamplesABC (1/100) yscaleEq := by
  unfold hmSamplesABC
  refine List.mem_map.mpr ⟨0, List.mem_range.mpr (by norm_num), ?_⟩
  rw [corners6]
  simp only [List.getD, List.get?, Option.getD, List.getElem?_cons_zero,
    List.getElem?_cons_succ]
  rw [cornerP1, cornerP2, cornerP3]
  simp only [boundarySample]
  rw [dist6_12, dist6_23, dist6_31]
  rw [if_pos (by norm_num : ((0:ℕ):ℝ)/9999 ≤ (97:ℝ)/100 / (97/100 + 97/100 + 97/100))]
  have h0 : (((0:ℕ):ℝ)/9999) / ((97:ℝ)/100 / (97/100 + 97/100 + 97/100)) = 0 := by
    norm_num
  rw [h0, lerp2_zero, ← cornerP1]
  exact xy_to_ABC_ABC_to_xy _ _ _ 1 yscaleEq one_ne_zero
    (ne_of_gt yscaleEq_pos) (by norm_num)

/-- The A-heavy margin corner (parameter 6666/9999 = 2/3 hits the third loop
point) is among the barycentric boundary samples. -/
theorem sample6_A : ((98:ℝ)/100, 1/100, 1/100) ∈ hmSamplesABC (1/100) yscaleEq := by
  unfold hmSamplesABC
  refine List.mem_map.mpr ⟨6666, List.mem_range.mpr (by norm_num), ?_⟩
  rw [corners6]
  simp only [List.getD, List.get?, Option.getD, List.getElem?_cons_zero,
    List.getElem?_cons_succ]
  rw [cornerP1, cornerP2, cornerP3]
  simp only [boundarySample]
  rw [dist6_12, dist6_23, dist6_31]
  rw [if_neg (by push_cast; norm_num :
    ¬ (((6666:ℕ):ℝ)/9999 ≤ (97:ℝ)/100 / (97/100 + 97/100 + 97/100)))]
  rw [if_pos (by push_cast; norm_num :
    ((6666:ℕ):ℝ)/9999 ≤ ((97:ℝ)/100 + 97/100) / (97/100 + 97/100 + 97/100))]
  rw [lerp2_of_eq_one _ _ (by push_cast; norm_num)]
  rw [← cornerP3]
  exact xy_to_ABC_ABC_to_xy _ _ _ 1 yscaleEq one_ne_zero
    (ne_of_gt yscaleEq_pos) (by norm_num)

/-- The first ilr coordinate is monotone in the a/b ratio (positive parts,
cross-multiplied form). -/
theorem ilr1_mono {p q : ℝ × ℝ × ℝ} (hp1 : 0 < p.1) (hp2 : 0 < p.2.1)
    (hq2 : 0 < q.2.1) (h : p.1 * q.2.1 ≤ q.1 * p.2.1) :
    (ilr3 p).1 ≤ (ilr3 q).1 := by
  unfold ilr3
  refine mul_le_mul_of_nonneg_left ?_ (inv_nonneg.mpr (Real.sqrt_nonneg 2))
  refine Real.log_le_log (div_pos hp1 hp2) ?_
  rw [div_le_div_iff hp2 hq2]
  exact h

/-- The second ilr coordinate is monotone in the ab/c^2 ratio (positive
parts, cross-multiplied form). -/
theorem ilr2_mono {p q : ℝ × ℝ × ℝ} (hp1 : 0 < p.1) (hp2 : 0 < p.2.1)
    (hp3 : 0 < p.2.2) (hq3 : 0 < q.2.2)
    (h : p.1 * p.2.1 * q.2.2 ^ 2 ≤ q.1 * q.2.1 * p.2.2 ^ 2) :
    (ilr3 p).2 ≤ (ilr3 q).2 := by
  unfold ilr3
  refine mul_le_mul_of_nonneg_left ?_ (inv_nonneg.mpr (Real.sqrt_nonneg 6))
  refine Real.log_le_log (div_pos (mul_pos hp1 hp2) (pow_pos hp3 2)) ?_
  rw [div_le_div_iff (pow_pos hp3 2) (pow_pos hq3 2)]
  exact h

/-- The first ilr coordinate of the C-heavy corner is 0 (ratio 1). -/
theorem ilr1_Cheavy : (ilr3 ((1:ℝ)/100, 1/100, 98/100)).1 = 0 := by
  unfold ilr3
  norm_num

/-- The first ilr coordinate of the A-heavy corner is positive (ratio 98). -/
theorem ilr1_Aheavy : 0 < (ilr3 ((98:ℝ)/100, 1/100, 1/100)).1 := by
  unfold ilr3
  refine mul_pos (inv_pos.mpr (Real.sqrt_pos.mpr (by norm_num))) ?_
  refine Real.log_pos ?_
  norm_num

/-- The second ilr coordinate of the C-heavy corner is negative
(ratio 1/9604). -/
theorem ilr2_Cheavy : (ilr3 ((1:ℝ)/100, 1/100, 98/100)).2 < 0 := by
  unfold ilr3
  refine mul_neg_of_pos_of_neg (inv_pos.mpr (Real.sqrt_pos.mpr (by norm_num))) ?_
  refine Real.log_neg (by norm_num) (by norm_num)

/-- The second ilr coordinate of the A-heavy corner is positive (ratio 98). -/
theorem ilr2_Aheavy : 0 < (ilr3 ((98:ℝ)/100, 1/100, 1/100)).2 := by
  unfold ilr3
  refine mul_pos (inv_pos.mpr (Real.sqrt_pos.mpr (by norm_num))) ?_
  refine Real.log_pos ?_
  norm_num

/-- The transformed C6 data lies inside the transformed boundary bounding
box, coordinatewise. -/
theorem containment6 : ∀ p ∈ (closeRows data6).map ilr3,
    hmAxmin ilr3 (1/100) yscaleEq ≤ p.1 ∧ p.1 ≤ hmAxmax ilr3 (1/100) yscaleEq ∧
    hmAymin ilr3 (1/100) yscaleEq ≤ p.2 ∧ p.2 ≤ hmAymax ilr3 (1/100) yscaleEq := by
  have hminx : hmAxmin ilr3 (1/100) yscaleEq ≤ (ilr3 ((1:ℝ)/100, 1/100, 98/100)).1 := by
    unfold hmAxmin
    exact listMinA_le (List.mem_map_of_mem _ sample6_C)
  have hmaxx : (ilr3 ((98:ℝ)/100, 1/100, 1/100)).1 ≤ hmAxmax ilr3 (1/100) yscaleEq := by
    unfold hmAxmax
    exact le_listMaxA (List.mem_map_of_mem _ sample6_A)
  have hminy : hmAymin ilr3 (1/100) yscaleEq ≤ (ilr3 ((1:ℝ)/100, 1/100, 98/100)).2 := by
    unfold hmAymin
    exact listMinA_le (List.mem_map_of_mem _ sample6_C)
  have hmaxy : (ilr3 ((98:ℝ)/100, 1/100, 1/100)).2 ≤ hmAymax ilr3 (1/100) yscaleEq := by
    unfold hmAymax
    exact le_listMaxA (List.mem_map_of_mem _ sample6_A)
  rw [closeRows_data6]
  intro p hp
  unfold data6 at hp
  simp only [List.map, List.mem_cons, List.not_mem_nil, or_false] at hp
  rcases hp with rfl | rfl
  · refine ⟨?_, ?_, ?_, ?_⟩
    · refine le_trans hminx (ilr1_mono ?_ ?_ ?_ ?_) <;> norm_num
    · refine le_trans (ilr1_mono ?_ ?_ ?_ ?_) hmaxx <;> norm_num
    · refine le_trans hminy (ilr2_mono ?_ ?_ ?_ ?_ ?_) <;> norm_num
    · refine le_trans (ilr2_mono ?_ ?_ ?_ ?_ ?_) hmaxy <;> norm_num
  · refine ⟨?_, ?_, ?_, ?_⟩
    · refine le_trans hminx (ilr1_mono ?_ ?_ ?_ ?_) <;> norm_num
    · refine le_trans (ilr1_mono ?_ ?_ ?_ ?_) hmaxx <;> norm_num
    · refine le_trans hminy (ilr2_mono ?_ ?_ ?_ ?_ ?_) <;> norm_num
    · refine le_trans (ilr2_mono ?_ ?_ ?_ ?_ ?_) hmaxy <;> norm_num

/-- The x bounding interval of the C6 boundary is nondegenerate. -/
theorem xrange6 : hmAxmin ilr3 (1/100) yscaleEq < hmAxmax ilr3 (1/100) yscaleEq := by
  have hminx : hmAxmin ilr3 (1/100) yscaleEq ≤ (ilr3 ((1:ℝ)/100, 1/100, 98/100)).1 := by
    unfold hmAxmin
    exact listMinA_le (List.mem_map_of_mem _ sample6_C)
  have hmaxx : (ilr3 ((98:ℝ)/100, 1/100, 1/100)).1 ≤ hmAxmax ilr3 (1/100) yscaleEq := by
    unfold hmAxmax
    exact le_listMaxA (List.mem_map_of_mem _ sample6_A)
  rw [ilr1_Cheavy] at hminx
  exact lt_of_le_of_lt hminx (lt_of_lt_of_le ilr1_Aheavy hmaxx)

/-- The y bounding interval of the C6 boundary is nondegenerate. -/
theorem yrange6 : hmAymin ilr3 (1/100) yscaleEq < hmAymax ilr3 (1/100) yscaleEq := by
  have hminy : hmAymin ilr3 (1/100) yscaleEq ≤ (ilr3 ((1:ℝ)/100, 1/100, 98/100)).2 := by
    unfold hmAymin
    exact listMinA_le (List.mem_map_of_mem _ sample6_C)
  have hmaxy : (ilr3 ((98:ℝ)/100, 1/100, 1/100)).2 ≤ hmAymax ilr3 (1/100) yscaleEq := by
    unfold hmAymax
    exact le_listMaxA (List.mem_map_of_mem _ sample6_A)
  exact lt_of_le_of_lt (le_trans hminy (le_of_lt ilr2_Cheavy))
    (lt_of_lt_of_le ilr2_Aheavy hmaxy)

/-- Explicit form of the 6 bin edges built from 5 linspace centres. -/
theorem edges5_eq (a b : ℝ) :
    bin_centres_to_edges (linspaceL a b 5) =
      [a - (b - a) / 8, a + (b - a) / 8, a + 3 * (b - a) / 8,
       a + 5 * (b - a) / 8, a + 7 * (b - a) / 8, b + (b - a) / 8] := by
  have hls : linspaceL a b 5 =
      [a, a + (b - a) / 4, a + (b - a) / 2, a + 3 * (b - a) / 4, b] := by
    simp only [linspaceL, List.range_succ, List.range_zero, List.map_append,
      List.map_cons, List.map_nil, List.nil_append, List.cons_append,
      List.cons.injEq, and_true]
    push_cast
    refine ⟨by ring, by ring, by ring, by ring, by ring⟩
  rw [hls]
  unfold bin_centres_to_edges
  simp only [List.getD, List.get?, Option.getD, List.getElem?_cons_zero,
    List.getElem?_cons_succ, List.getLastD_cons, List.getLastD_nil,
    List.map_cons, List.map_nil, List.cons_append, List.nil_append,
    List.cons.injEq, and_true]
  refine ⟨by ring, by ring, by ring, by ring, by ring, by ring⟩

/-- For a < b the 6 edges are at least 2, strictly increasing, and bracket
the interval [a, b]. -/
theorem edges5_facts (a b : ℝ) (h : a < b) :
    2 ≤ (bin_centres_to_edges (linspaceL a b 5)).length ∧
    List.Chain' (fun u v : ℝ => u < v) (bin_centres_to_edges (linspaceL a b 5)) ∧
    (bin_centres_to_edges (linspaceL a b 5)).headD 0 ≤ a ∧
    b ≤ (bin_centres_to_edges (linspaceL a b 5)).getLastD 0 := by
  rw [edges5_eq]
  refine ⟨by norm_num, ?_, ?_, ?_⟩
  · simp only [List.chain'_cons, List.chain'_singleton, and_true]
    refine ⟨by linarith, by linarith, by linarith, by linarith, by linarith⟩
  · simp only [List.headD]
    linarith
  · simp only [List.getLastD_cons, List.getLastD_nil]
    linarith

/-- The let-expanded form of ternary_heatmap, for rewriting under
projections. -/
theorem ternary_heatmap_eq (data : List (ℝ × ℝ × ℝ)) (nbins : ℕ) (margin : ℝ)
    (tfm : ℝ × ℝ × ℝ → ℝ × ℝ) (itfm : ℝ × ℝ → ℝ × ℝ × ℝ) (s : ℝ) :
    ternary_heatmap data nbins margin tfm itfm s =
      { xe := (bin_centres_to_edges (linspaceL (hmAymin tfm (effMargin data margin) s)
                (hmAymax tfm (effMargin data margin) s) nbins)).map (fun yv =>
              (bin_centres_to_edges (linspaceL (hmAxmin tfm (effMargin data margin) s)
                (hmAxmax tfm (effMargin data margin) s) nbins)).map (fun xv =>
                (ABC_to_xy (itfm (xv, yv)) 1 s).1)),
        ye := (bin_centres_to_edges (linspaceL (hmAymin tfm (effMargin data margin) s)
                (hmAymax tfm (effMargin data margin) s) nbins)).map (fun yv =>
              (bin_centres_to_edges (linspaceL (hmAxmin tfm (effMargin data margin) s)
                (hmAxmax tfm (effMargin data margin) s) nbins)).map (fun xv =>
                (ABC_to_xy (itfm (xv, yv)) 1 s).2)),
        counts := removeBackground (histCounts ((closeRows data).map tfm)
              (bin_centres_to_edges (linspaceL (hmAxmin tfm (effMargin data margin) s)
                (hmAxmax tfm (effMargin data margin) s) nbins))
              (bin_centres_to_edges (linspaceL (hmAymin tfm (effMargin data margin) s)
                (hmAymax tfm (effMargin data margin) s) nbins))),
        cx := (linspaceL (hmAymin tfm (effMargin data margin) s)
                (hmAymax tfm (effMargin data margin) s) nbins).map (fun yv =>
              (linspaceL (hmAxmin tfm (effMargin data margin) s)
                (hmAxmax tfm (effMargin data margin) s) nbins).map (fun xv =>
                (ABC_to_xy (itfm (xv, yv)) 1 s).1)),
        cy := (linspaceL (hmAymin tfm (effMargin data margin) s)
                (hmAymax tfm (effMargin data margin) s) nbins).map (fun yv =>
              (linspaceL (hmAxmin tfm (effMargin data margin) s)
                (hmAxmax tfm (effMargin data margin) s) nbins).map (fun xv =>
                (ABC_to_xy (itfm (xv, yv)) 1 s).2)) } := rfl

/-- C6: for the data rows [[0.8,0.1,0.1],[0.33,0.33,0.34]] with bins=5 in
histogram mode, ternary_heatmap returns x-edge and y-edge grids of shape
(6,6), a count matrix and centre grids of shape (5,5), and the non-NaN cells
of the count matrix (after background removal) sum to 2, the number of input
rows. -/
theorem C6_ternary_heatmap_histogram :
    heat6.xe.length = 6 ∧ (∀ row ∈ heat6.xe, row.length = 6) ∧
    heat6.ye.length = 6 ∧ (∀ row ∈ heat6.ye, row.length = 6) ∧
    heat6.counts.length = 5 ∧ (∀ row ∈ heat6.counts, row.length = 5) ∧
    heat6.cx.length = 5 ∧ (∀ row ∈ heat6.cx, row.length = 5) ∧
    heat6.cy.length = 5 ∧ (∀ row ∈ heat6.cy, row.length = 5) ∧
    (heat6.counts.map (fun row => (row.filterMap id).sum)).sum = 2 := by
  unfold heat6
  rw [ternary_heatmap_eq, effMargin_data6, closeRows_data6]
  obtain ⟨hx2, hxc, hxlo, hxhi⟩ :=
    edges5_facts (hmAxmin ilr3 (1/100) yscaleEq) (hmAxmax ilr3 (1/100) yscaleEq) xrange6
  obtain ⟨hy2, hyc, hylo, hyhi⟩ :=
    edges5_facts (hmAymin ilr3 (1/100) yscaleEq) (hmAymax ilr3 (1/100) yscaleEq) yrange6
  have hxlen : (bin_centres_to_edges (linspaceL (hmAxmin ilr3 (1/100) yscaleEq)
      (hmAxmax ilr3 (1/100) yscaleEq) 5)).length = 6 := by
    rw [bin_centres_to_edges_length, linspaceL_length]
  have hylen : (bin_centres_to_edges (linspaceL (hmAymin ilr3 (1/100) yscaleEq)
      (hmAymax ilr3 (1/100) yscaleEq) 5)).length = 6 := by
    rw [bin_centres_to_edges_length, linspaceL_length]
  have hJ : ∀ p ∈ data6.map ilr3, ∃ j,
      j < (bin_centres_to_edges (linspaceL (hmAxmin ilr3 (1/100) yscaleEq)
        (hmAxmax ilr3 (1/100) yscaleEq) 5)).length - 1 ∧
      binIndexL (bin_centres_to_edges (linspaceL (hmAxmin ilr3 (1/100) yscaleEq)
        (hmAxmax ilr3 (1/100) yscaleEq) 5)) p.1 = some j := by
    intro p hp
    obtain ⟨h1, h2, _, _⟩ := containment6 p (by rw [closeRows_data6]; exact hp)
    exact binIndexL_total _ p.1 hx2 hxc (le_trans hxlo h1) (le_trans h2 hxhi)
  have hI : ∀ p ∈ data6.map ilr3, ∃ i,
      i < (bin_centres_to_edges (linspaceL (hmAymin ilr3 (1/100) yscaleEq)
        (hmAymax ilr3 (1/100) yscaleEq) 5)).length - 1 ∧
      binIndexL (bin_centres_to_edges (linspaceL (hmAymin ilr3 (1/100) yscaleEq)
        (hmAymax ilr3 (1/100) yscaleEq) 5)) p.2 = some i := by
    intro p hp
    obtain ⟨_, _, h3, h4⟩ := containment6 p (by rw [closeRows_data6]; exact hp)
    exact binIndexL_total _ p.2 hy2 hyc (le_trans hylo h3) (le_trans h4 hyhi)
  refine ⟨?_, ?_, ?_, ?_, ?_, ?_, ?_, ?_, ?_, ?_, ?_⟩
  · simp only [List.length_map]
    exact hylen
  · intro row hrow
    obtain ⟨yv, _, rfl⟩ := List.mem_map.mp hrow
    simp only [List.length_map]
    exact hxlen
  · simp only [List.length_map]
    exact hylen
  · intro row hrow
    obtain ⟨yv, _, rfl⟩ := List.mem_map.mp hrow
    simp only [List.length_map]
    exact hxlen
  · simp only [removeBackground, histCounts, List.length_map, List.length_range]
    rw [hylen]
  · intro row hrow
    simp only [removeBackground, histCounts, List.map_map, List.mem_map] at hrow
    obtain ⟨i, _, rfl⟩ := hrow
    simp only [Function.comp, List.length_map, List.length_range]
    rw [hxlen]
  · simp only [List.length_map, linspaceL_length]
  · intro row hrow
    obtain ⟨yv, _, rfl⟩ := List.mem_map.mp hrow
    simp only [List.length_map, linspaceL_length]
  · simp only [List.length_map, linspaceL_length]
  · intro row hrow
    obtain ⟨yv, _, rfl⟩ := List.mem_map.mp hrow
    simp only [List.length_map, linspaceL_length]
  · rw [removeBackground_sum]
    have hgrid := grid_count_sum
      (fun p : ℝ × ℝ => binIndexL (bin_centres_to_edges
        (linspaceL (hmAxmin ilr3 (1/100) yscaleEq) (hmAxmax ilr3 (1/100) yscaleEq) 5)) p.1)
      (fun p : ℝ × ℝ => binIndexL (bin_centres_to_edges
        (linspaceL (hmAymin ilr3 (1/100) yscaleEq) (hmAymax ilr3 (1/100) yscaleEq) 5)) p.2)
      ((bin_centres_to_edges (linspaceL (hmAymin ilr3 (1/100) yscaleEq)
        (hmAymax ilr3 (1/100) yscaleEq) 5)).length - 1)
      ((bin_centres_to_edges (linspaceL (hmAxmin ilr3 (1/100) yscaleEq)
        (hmAxmax ilr3 (1/100) yscaleEq) 5)).length - 1)
      (data6.map ilr3) hJ hI
    rw [List.length_map] at hgrid
    simp only [histCounts, List.map_map, Function.comp]
    exact hgrid.trans (by rfl)

end Pyrolite
